import Mathlib

/-!
# vault: configuration store and command router

A shallow embedding of `haleyrc/vault` (`main.go`, `vault/config.go`,
`vault/app.go`).  Go strings are byte sequences, so they are lists of bytes
here.  The parts of the Go standard library the program calls
(`unicode/utf8`, `encoding/json`, `flag`, `text/tabwriter`, `os`) are modelled
as executable functions, stated before the code that calls them.  Functions
of the program take the world (file system, output, log) as an argument and
return it with their result.
-/

namespace Vault

/-! ## Bytes and strings -/

/-- A Go `byte`. -/
abbrev Byte := Fin 256

/-- A Go `string`: an arbitrary sequence of bytes (not necessarily UTF-8). -/
abbrev GoString := List Byte

/-- Conversion `byte(n)` of an integer: the low eight bits. -/
def byte (n : Nat) : Byte := ⟨n % 256, Nat.mod_lt n (by decide)⟩

/-- The bytes of an ASCII literal of the source. -/
def lit (s : String) : GoString := s.toList.map (fun c => byte c.toNat)

/-! ## vault/config.go -/

/-- `type Share struct { Name string; Dir string }`. -/
structure Share where
  Name : GoString
  Dir : GoString
deriving DecidableEq, Repr

/-- `type Config struct { Shares []Share }`.  A Go slice is either `nil`
(`none`) or a possibly empty sequence (`some l`); the two differ only in how
`encoding/json` prints them. -/
structure Config where
  Shares : Option (List Share)
deriving DecidableEq, Repr

/-- The elements of `c.Shares` in order (a nil slice has none). -/
def Config.shareList (c : Config) : List Share := c.Shares.getD []

/-- `func (c *Config) AddShare(name, dir string)`:
`c.Shares = append(c.Shares, Share{Name: name, Dir: dir})`. -/
def Config.AddShare (c : Config) (name dir : GoString) : Config :=
  { Shares := some (c.shareList ++ [{ Name := name, Dir := dir }]) }

/-! ## unicode/utf8

Runes are natural numbers. -/

/-- `utf8.RuneError`, the replacement character U+FFFD. -/
def RuneError : Nat := 0xFFFD

/-- `utf8.RuneSelf`: bytes below it are single-byte runes. -/
def RuneSelf : Nat := 0x80

/-- `utf8.UTFMax`: the longest encoding of a rune, in bytes. -/
def UTFMax : Nat := 4

/-- The tables `first` and `acceptRanges` of `unicode/utf8`, for a leading
byte `p0 ≥ RuneSelf`: the length of the sequence it starts and the range the
second byte must lie in; `none` is the table entry `xx` (invalid). -/
def first (p0 : Nat) : Option (Nat × Nat × Nat) :=
  if p0 < 0xC2 then none
  else if p0 < 0xE0 then some (2, 0x80, 0xBF)
  else if p0 = 0xE0 then some (3, 0xA0, 0xBF)
  else if p0 < 0xED then some (3, 0x80, 0xBF)
  else if p0 = 0xED then some (3, 0x80, 0x9F)
  else if p0 < 0xF0 then some (3, 0x80, 0xBF)
  else if p0 = 0xF0 then some (4, 0x90, 0xBF)
  else if p0 < 0xF4 then some (4, 0x80, 0xBF)
  else if p0 = 0xF4 then some (4, 0x80, 0x8F)
  else none

/-- `utf8.DecodeRune` (and `DecodeRuneInString`): the first rune of `p` and its
width in bytes; `(RuneError, 0)` for empty input and `(RuneError, 1)` for an
invalid or short encoding.  Masks and shifts are written arithmetically:
`x & 0x3F` is `x % 64`, `x << 6` is `x * 64`, and the or-ed parts have disjoint
bits, so `|` is `+`. -/
def DecodeRune (p : List Byte) : Nat × Nat :=
  match p with
  | [] => (RuneError, 0)
  | p0 :: rest =>
    if p0.val < RuneSelf then (p0.val, 1)
    else
      match first p0.val with
      | none => (RuneError, 1)
      | some (sz, lo, hi) =>
        if p.length < sz then (RuneError, 1)
        else
          match rest with
          | [] => (RuneError, 1)
          | b1 :: rest1 =>
            if b1.val < lo ∨ hi < b1.val then (RuneError, 1)
            else if sz ≤ 2 then (p0.val % 32 * 64 + b1.val % 64, 2)
            else
              match rest1 with
              | [] => (RuneError, 1)
              | b2 :: rest2 =>
                if b2.val < 0x80 ∨ 0xBF < b2.val then (RuneError, 1)
                else if sz ≤ 3 then
                  (p0.val % 16 * 4096 + b1.val % 64 * 64 + b2.val % 64, 3)
                else
                  match rest2 with
                  | [] => (RuneError, 1)
                  | b3 :: _ =>
                    if b3.val < 0x80 ∨ 0xBF < b3.val then (RuneError, 1)
                    else
                      (p0.val % 8 * 262144 + b1.val % 64 * 4096 + b2.val % 64 * 64
                        + b3.val % 64, 4)

/-- `utf8.EncodeRune` (and `AppendRune`): the UTF-8 encoding of `r`; surrogates
and values above U+10FFFF are encoded as `RuneError`. -/
def EncodeRune (r : Nat) : List Byte :=
  if r ≤ 0x7F then [byte r]
  else if r ≤ 0x7FF then [byte (0xC0 + r / 64), byte (0x80 + r % 64)]
  else if 0x10FFFF < r ∨ (0xD800 ≤ r ∧ r ≤ 0xDFFF) then [0xEF, 0xBF, 0xBD]
  else if r ≤ 0xFFFF then
    [byte (0xE0 + r / 4096), byte (0x80 + r / 64 % 64), byte (0x80 + r % 64)]
  else
    [byte (0xF0 + r / 262144), byte (0x80 + r / 4096 % 64), byte (0x80 + r / 64 % 64),
      byte (0x80 + r % 64)]

/-- The loop of `utf8.RuneCount`, one rune a step. -/
def RuneCountAux : Nat → List Byte → Nat
  | 0, _ => 0
  | fuel + 1, p =>
    match p with
    | [] => 0
    | _ :: _ => 1 + RuneCountAux fuel (p.drop (DecodeRune p).2)

/-- `utf8.RuneCount`: the number of runes in `p`; an erroneous or short
encoding counts as one rune of width one byte. -/
def RuneCount (p : List Byte) : Nat := RuneCountAux p.length p

/-- The loop of `utf8.Valid`. -/
def ValidAux : Nat → List Byte → Bool
  | 0, p => p.isEmpty
  | fuel + 1, p =>
    match p with
    | [] => true
    | _ :: _ =>
      if (DecodeRune p).1 = RuneError ∧ (DecodeRune p).2 = 1 then false
      else ValidAux fuel (p.drop (DecodeRune p).2)

/-- `utf8.Valid` (and `ValidString`): `p` consists entirely of valid
UTF-8-encoded runes. -/
def ValidString (p : List Byte) : Bool := ValidAux p.length p

/-! ## encoding/json: the encoder -/

/-- The byte `"`. -/
def cQuote : Byte := 0x22
/-- The byte `\`. -/
def cBackslash : Byte := 0x5C

/-- The digit `hex[n]` of `"0123456789abcdef"`. -/
def hexDigit (n : Nat) : Byte := if n < 10 then byte (0x30 + n) else byte (0x61 + (n - 10))

/-- The table `htmlSafeSet`: the ASCII bytes the encoder copies unescaped
(everything from space to DEL except `"`, `\`, `<`, `>` and `&`). -/
def htmlSafeSet (b : Nat) : Bool :=
  decide (0x20 ≤ b ∧ b < 0x80 ∧ b ≠ 0x22 ∧ b ≠ 0x5C ∧ b ≠ 0x3C ∧ b ≠ 0x3E ∧ b ≠ 0x26)

/-- The escape `appendString` writes for an ASCII byte outside `htmlSafeSet`. -/
def escapeByte (b : Byte) : List Byte :=
  if b.val = 0x5C ∨ b.val = 0x22 then [cBackslash, b]
  else if b.val = 0x08 then [cBackslash, 0x62]
  else if b.val = 0x0C then [cBackslash, 0x66]
  else if b.val = 0x0A then [cBackslash, 0x6E]
  else if b.val = 0x0D then [cBackslash, 0x72]
  else if b.val = 0x09 then [cBackslash, 0x74]
  else [cBackslash, 0x75, 0x30, 0x30, hexDigit (b.val / 16), hexDigit (b.val % 16)]

/-- The loop of `appendString` (with `escapeHTML`, the encoder's default): what
is written for `src`, one rune a step.  The source copies runs of unescaped
bytes in one piece (`src[start:i]`); here each is emitted as it is passed. -/
def appendStringAux : Nat → List Byte → List Byte
  | 0, _ => []
  | fuel + 1, src =>
    match src with
    | [] => []
    | b :: rest =>
      if b.val < RuneSelf then
        (if htmlSafeSet b.val then [b] else escapeByte b) ++ appendStringAux fuel rest
      else
        let d := DecodeRune (src.take UTFMax)
        if d.1 = RuneError ∧ d.2 = 1 then
          [cBackslash, 0x75, 0x66, 0x66, 0x66, 0x64] ++ appendStringAux fuel (src.drop 1)
        else if d.1 = 0x2028 ∨ d.1 = 0x2029 then
          [cBackslash, 0x75, 0x32, 0x30, 0x32, hexDigit (d.1 % 16)]
            ++ appendStringAux fuel (src.drop d.2)
        else src.take d.2 ++ appendStringAux fuel (src.drop d.2)

/-- `appendString`: the JSON string literal the encoder writes for a Go string
(`\b` and `\f` are written in their short form, as Go 1.22 and later do; earlier
releases write `\u0008` and `\u000c`, which the decoder reads the same). -/
def appendString (src : GoString) : List Byte :=
  [cQuote] ++ appendStringAux src.length src ++ [cQuote]

/-- A newline followed by `depth` copies of the indent `"    "`
(`appendNewline` with an empty prefix). -/
def newlineIndent (depth : Nat) : List Byte := 0x0A :: List.replicate (4 * depth) 0x20

/-- The indented encoding of one `Share`, an object at nesting depth 2. -/
def encodeShare (s : Share) : List Byte :=
  [0x7B] ++ newlineIndent 3 ++ [cQuote] ++ lit "Name" ++ [cQuote, 0x3A, 0x20]
    ++ appendString s.Name ++ [0x2C] ++ newlineIndent 3
    ++ [cQuote] ++ lit "Dir" ++ [cQuote, 0x3A, 0x20] ++ appendString s.Dir
    ++ newlineIndent 2 ++ [0x7D]

/-- The elements of a non-empty array of shares, each on a line of its own. -/
def encodeShareList : List Share → List Byte
  | [] => []
  | [s] => newlineIndent 2 ++ encodeShare s
  | s :: rest => newlineIndent 2 ++ encodeShare s ++ [0x2C] ++ encodeShareList rest

/-- The indented encoding of the field `Shares`: `null` for a nil slice, `[]`
for an empty one. -/
def encodeShares : Option (List Share) → List Byte
  | none => lit "null"
  | some [] => [0x5B, 0x5D]
  | some (s :: rest) => [0x5B] ++ encodeShareList (s :: rest) ++ newlineIndent 1 ++ [0x5D]

/-- What `enc.Encode(a.Config)` writes after `enc.SetIndent("", "    ")`: the
marshalled `Config` (fields in declaration order under their Go names),
re-indented by four spaces a level, and a final newline. -/
def encodeConfig (c : Config) : List Byte :=
  [0x7B] ++ newlineIndent 1 ++ [cQuote] ++ lit "Shares" ++ [cQuote, 0x3A, 0x20]
    ++ encodeShares c.Shares ++ newlineIndent 0 ++ [0x7D, 0x0A]

/-! ## encoding/json: the scanner -/

/-- A JSON value as the scanner delimits it.  Numbers keep their text and
strings the bytes between their quotes, escapes unprocessed. -/
inductive JSON where
  | null
  | bool (b : Bool)
  | number (text : List Byte)
  | string (body : List Byte)
  | array (elems : List JSON)
  | object (members : List (List Byte × JSON))

/-- `maxNestingDepth`: the scanner fails with "exceeded max depth" when
objects and arrays nest deeper. -/
def maxNestingDepth : Nat := 10000

/-- `isSpace`: space, tab, carriage return, newline. -/
def isSpace (c : Byte) : Bool :=
  decide (c.val = 0x20 ∨ c.val = 0x09 ∨ c.val = 0x0D ∨ c.val = 0x0A)

/-- The bytes left once leading JSON white space is passed. -/
def skipSpace (s : List Byte) : List Byte := s.dropWhile isSpace

/-- An ASCII decimal digit. -/
def isDigit (c : Byte) : Bool := decide (0x30 ≤ c.val ∧ c.val ≤ 0x39)

/-- The value of a hexadecimal digit, in either case. -/
def hexVal (c : Byte) : Option Nat :=
  if 0x30 ≤ c.val ∧ c.val ≤ 0x39 then some (c.val - 0x30)
  else if 0x61 ≤ c.val ∧ c.val ≤ 0x66 then some (c.val - 0x61 + 10)
  else if 0x41 ≤ c.val ∧ c.val ≤ 0x46 then some (c.val - 0x41 + 10)
  else none

/-- The escape letters `stateInStringEsc` accepts after a backslash, `u` apart:
`b f n r t \ / "`. -/
def isSimpleEscape (c : Byte) : Bool :=
  decide (c.val = 0x62 ∨ c.val = 0x66 ∨ c.val = 0x6E ∨ c.val = 0x72 ∨ c.val = 0x74
    ∨ c.val = 0x5C ∨ c.val = 0x2F ∨ c.val = 0x22)

/-- The scanner inside a string literal (`stateInString`, `stateInStringEsc`,
`stateInStringEscU` to `U123`), entered after the opening quote: the bytes up
to the closing quote and the input after it.  Control bytes and malformed
escapes are errors; every other byte, valid UTF-8 or not, is accepted. -/
def scanString : List Byte → Option (List Byte × List Byte)
  | [] => none
  | c :: rest =>
    if c.val = 0x22 then some ([], rest)
    else if c.val = 0x5C then
      match rest with
      | [] => none
      | e :: rest1 =>
        if isSimpleEscape e then
          (scanString rest1).map (fun p => (c :: e :: p.1, p.2))
        else if e.val = 0x75 then
          match rest1 with
          | [] => none
          | h1 :: rest2 =>
            match rest2 with
            | [] => none
            | h2 :: rest3 =>
              match rest3 with
              | [] => none
              | h3 :: rest4 =>
                match rest4 with
                | [] => none
                | h4 :: rest5 =>
                  if (hexVal h1).isSome ∧ (hexVal h2).isSome ∧ (hexVal h3).isSome
                      ∧ (hexVal h4).isSome then
                    (scanString rest5).map
                      (fun p => (c :: e :: h1 :: h2 :: h3 :: h4 :: p.1, p.2))
                  else none
        else none
    else if c.val < 0x20 then none
    else (scanString rest).map (fun p => (c :: p.1, p.2))

/-- The scanner after the digits of an exponent or fraction are due: at least
one digit, then as many as follow. -/
def scanDigits (s : List Byte) : Option (List Byte × List Byte) :=
  match s with
  | [] => none
  | c :: rest =>
    if isDigit c then some (c :: rest.takeWhile isDigit, rest.dropWhile isDigit) else none

/-- The states `stateE`, `stateESign`, `stateE0`: an optional exponent. -/
def scanExp (s : List Byte) : Option (List Byte × List Byte) :=
  match s with
  | [] => some ([], [])
  | c :: rest =>
    if c.val = 0x65 ∨ c.val = 0x45 then
      match rest with
      | [] => none
      | g :: rest1 =>
        if g.val = 0x2B ∨ g.val = 0x2D then
          (scanDigits rest1).map (fun p => (c :: g :: p.1, p.2))
        else (scanDigits rest).map (fun p => (c :: p.1, p.2))
    else some ([], s)

/-- The states `stateDot`, `stateDot0`: an optional fraction, then the
exponent. -/
def scanFrac (s : List Byte) : Option (List Byte × List Byte) :=
  match s with
  | [] => some ([], [])
  | c :: rest =>
    if c.val = 0x2E then
      match scanDigits rest with
      | none => none
      | some (ds, rest1) => (scanExp rest1).map (fun p => (c :: ds ++ p.1, p.2))
    else scanExp s

/-- The states `state0`, `state1`: the integer part (a lone `0`, or a non-zero
digit and the digits after it), then fraction and exponent. -/
def scanInt (s : List Byte) : Option (List Byte × List Byte) :=
  match s with
  | [] => none
  | c :: rest =>
    if c.val = 0x30 then (scanFrac rest).map (fun p => (c :: p.1, p.2))
    else if 0x31 ≤ c.val ∧ c.val ≤ 0x39 then
      (scanFrac (rest.dropWhile isDigit)).map
        (fun p => (c :: rest.takeWhile isDigit ++ p.1, p.2))
    else none

/-- A number literal (`stateNeg` onwards): its text and the input after it. -/
def scanNumber (s : List Byte) : Option (List Byte × List Byte) :=
  match s with
  | [] => none
  | c :: rest =>
    if c.val = 0x2D then (scanInt rest).map (fun p => (c :: p.1, p.2)) else scanInt s

/-- The rest of the input when it starts with `word` (the states `stateT` to
`stateNul` spell out `true`, `false` and `null`). -/
def scanWord (word s : List Byte) : Option (List Byte) :=
  if s.take word.length = word then some (s.drop word.length) else none

/-- The elements of an array after the first is due (`stateBeginValue`, then
`stateEndValue` inside `parseArrayValue`): values separated by commas up to the
closing bracket.  `pv` scans one value; `fuel` bounds the number of elements
and never runs out when it is at least the length of the input. -/
def parseElems (pv : List Byte → Option (JSON × List Byte)) :
    Nat → List Byte → Option (List JSON × List Byte)
  | 0, _ => none
  | fuel + 1, s =>
    match pv s with
    | none => none
    | some (v, r) =>
      match skipSpace r with
      | [] => none
      | c :: r1 =>
        if c.val = 0x2C then (parseElems pv fuel r1).map (fun p => (v :: p.1, p.2))
        else if c.val = 0x5D then some ([v], r1)
        else none

/-- The members of an object after a key is due (`stateBeginString`, then
`stateEndValue` inside `parseObjectKey` and `parseObjectValue`). -/
def parseMembers (pv : List Byte → Option (JSON × List Byte)) :
    Nat → List Byte → Option (List (List Byte × JSON) × List Byte)
  | 0, _ => none
  | fuel + 1, s =>
    match skipSpace s with
    | [] => none
    | q :: r =>
      if q.val = 0x22 then
        match scanString r with
        | none => none
        | some (key, r1) =>
          match skipSpace r1 with
          | [] => none
          | c1 :: r2 =>
            if c1.val = 0x3A then
              match pv r2 with
              | none => none
              | some (v, r3) =>
                match skipSpace r3 with
                | [] => none
                | c2 :: r4 =>
                  if c2.val = 0x2C then
                    (parseMembers pv fuel r4).map (fun p => ((key, v) :: p.1, p.2))
                  else if c2.val = 0x7D then some ([(key, v)], r4)
                  else none
            else none
      else none

/-- One value (`stateBeginValue`), white space before it passed: the value and
the input after it.  `sub` scans the values nested one level down; it is
`none` when the nesting limit is reached, and then an object or array is an
error. -/
def parseValueWith (sub : Option (List Byte → Option (JSON × List Byte)))
    (s : List Byte) : Option (JSON × List Byte) :=
  match skipSpace s with
  | [] => none
  | c :: r =>
    if c.val = 0x7B then
      match sub with
      | none => none
      | some pv =>
        match skipSpace r with
        | [] => none
        | c1 :: r1 =>
          if c1.val = 0x7D then some (JSON.object [], r1)
          else (parseMembers pv r.length r).map (fun p => (JSON.object p.1, p.2))
    else if c.val = 0x5B then
      match sub with
      | none => none
      | some pv =>
        match skipSpace r with
        | [] => none
        | c1 :: r1 =>
          if c1.val = 0x5D then some (JSON.array [], r1)
          else (parseElems pv r.length r).map (fun p => (JSON.array p.1, p.2))
    else if c.val = 0x22 then (scanString r).map (fun p => (JSON.string p.1, p.2))
    else if c.val = 0x2D ∨ isDigit c then
      (scanNumber (c :: r)).map (fun p => (JSON.number p.1, p.2))
    else if c.val = 0x74 then (scanWord (lit "true") (c :: r)).map (fun r1 => (JSON.bool true, r1))
    else if c.val = 0x66 then
      (scanWord (lit "false") (c :: r)).map (fun r1 => (JSON.bool false, r1))
    else if c.val = 0x6E then (scanWord (lit "null") (c :: r)).map (fun r1 => (JSON.null, r1))
    else none

/-- The scanner on the first value of the input with `depth` further levels of
nesting allowed: the value and the bytes after it, which are not looked at. -/
def parseValue : Nat → List Byte → Option (JSON × List Byte)
  | 0 => parseValueWith none
  | depth + 1 => parseValueWith (some (parseValue depth))

/-- `json.Valid`: the whole input is one JSON value with white space around
it and nothing else. -/
def Valid (data : List Byte) : Bool :=
  match parseValue maxNestingDepth data with
  | none => false
  | some (_, rest) => (skipSpace rest).isEmpty

/-! ## encoding/json: the decoder -/

/-- `getu4`: the value of the escape `\uXXXX` the input starts with (`none`
where the source returns `-1`). -/
def getu4 (s : List Byte) : Option Nat :=
  match s with
  | b :: u :: h1 :: h2 :: h3 :: h4 :: _ =>
    if b.val = 0x5C ∧ u.val = 0x75 then
      match hexVal h1, hexVal h2, hexVal h3, hexVal h4 with
      | some a1, some a2, some a3, some a4 => some (((a1 * 16 + a2) * 16 + a3) * 16 + a4)
      | _, _, _, _ => none
    else none
  | _ => none

/-- `utf16.DecodeRune`: the rune of a surrogate pair, `RuneError` for anything
that is not a high surrogate followed by a low one (`r2` is `none` when no
second escape follows). -/
def utf16DecodeRune (r1 : Nat) (r2 : Option Nat) : Nat :=
  match r2 with
  | none => RuneError
  | some r2 =>
    if 0xD800 ≤ r1 ∧ r1 < 0xDC00 ∧ 0xDC00 ≤ r2 ∧ r2 < 0xE000 then
      (r1 - 0xD800) * 1024 + (r2 - 0xDC00) + 0x10000
    else RuneError

/-- The loop of `unquoteBytes` over the bytes between the quotes: escapes are
replaced by what they stand for and every other rune is re-encoded, invalid
UTF-8 becoming U+FFFD.  `none` where the source returns `ok = false`.  (The
source first looks for a byte that needs work and returns the input itself
when there is none; the loop gives the same bytes then.) -/
def unquoteAux : Nat → List Byte → Option (List Byte)
  | 0, s => if s.isEmpty then some [] else none
  | fuel + 1, s =>
    match s with
    | [] => some []
    | c :: rest =>
      if c.val = 0x5C then
        match rest with
        | [] => none
        | e :: rest1 =>
          if e.val = 0x22 ∨ e.val = 0x5C ∨ e.val = 0x2F ∨ e.val = 0x27 then
            (unquoteAux fuel rest1).map (fun t => e :: t)
          else if e.val = 0x62 then (unquoteAux fuel rest1).map (fun t => 0x08 :: t)
          else if e.val = 0x66 then (unquoteAux fuel rest1).map (fun t => 0x0C :: t)
          else if e.val = 0x6E then (unquoteAux fuel rest1).map (fun t => 0x0A :: t)
          else if e.val = 0x72 then (unquoteAux fuel rest1).map (fun t => 0x0D :: t)
          else if e.val = 0x74 then (unquoteAux fuel rest1).map (fun t => 0x09 :: t)
          else if e.val = 0x75 then
            match getu4 s with
            | none => none
            | some rr =>
              if 0xD800 ≤ rr ∧ rr < 0xE000 then
                if utf16DecodeRune rr (getu4 (s.drop 6)) ≠ RuneError then
                  (unquoteAux fuel (s.drop 12)).map
                    (fun t => EncodeRune (utf16DecodeRune rr (getu4 (s.drop 6))) ++ t)
                else (unquoteAux fuel (s.drop 6)).map (fun t => EncodeRune RuneError ++ t)
              else (unquoteAux fuel (s.drop 6)).map (fun t => EncodeRune rr ++ t)
          else none
      else if c.val = 0x22 ∨ c.val < 0x20 then none
      else if c.val < RuneSelf then (unquoteAux fuel rest).map (fun t => c :: t)
      else
        (unquoteAux fuel (s.drop (DecodeRune s).2)).map
          (fun t => EncodeRune (DecodeRune s).1 ++ t)

/-- `unquoteBytes` on the body of a string literal. -/
def unquote (body : List Byte) : Option GoString := unquoteAux body.length body

/-- `foldRune` as far as ASCII names can tell: the only non-ASCII runes whose
fold is an ASCII letter are U+017F (long s) and U+212A (Kelvin sign).  Any
other non-ASCII rune folds to a non-ASCII rune and is left as it is here. -/
def foldRune (r : Nat) : Nat :=
  if r = 0x17F then 0x53 else if r = 0x212A then 0x4B else r

/-- The loop of `appendFoldedName`. -/
def foldNameAux : Nat → List Byte → List Byte
  | 0, _ => []
  | fuel + 1, s =>
    match s with
    | [] => []
    | c :: rest =>
      if c.val < RuneSelf then
        (if 0x61 ≤ c.val ∧ c.val ≤ 0x7A then byte (c.val - 0x20) else c) :: foldNameAux fuel rest
      else EncodeRune (foldRune (DecodeRune s).1) ++ foldNameAux fuel (s.drop (DecodeRune s).2)

/-- `foldName`: the key under which a struct field is looked up when no field
has exactly the name given; two names with equal folds are equal under
`bytes.EqualFold`. -/
def foldName (s : List Byte) : List Byte := foldNameAux s.length s

/-- Whether an object key selects the field called `name`: the key, unquoted,
folds to the same bytes as the name (a key equal to the name is such a key;
the exact match the source tries first finds the same field). -/
def keyIs (name : String) (key : List Byte) : Bool :=
  match unquote key with
  | none => false
  | some k => decide (foldName k = foldName (lit name))

/-- `literalStore` and `value` into a field of type `string`: a string literal
sets it, `null` leaves it as it is, anything else is an
`UnmarshalTypeError`.  The flag is the error. -/
def storeString (v : JSON) (cur : GoString) : GoString × Bool :=
  match v with
  | JSON.string body =>
    match unquote body with
    | some s => (s, false)
    | none => (cur, true)
  | JSON.null => (cur, false)
  | _ => (cur, true)

/-- One member of an object decoded into a `Share`; the value of a key that
names no field is skipped. -/
def storeShareField (acc : Share × Bool) (m : List Byte × JSON) : Share × Bool :=
  if keyIs "Name" m.1 then
    ({ acc.1 with Name := (storeString m.2 acc.1.Name).1 },
      acc.2 || (storeString m.2 acc.1.Name).2)
  else if keyIs "Dir" m.1 then
    ({ acc.1 with Dir := (storeString m.2 acc.1.Dir).1 },
      acc.2 || (storeString m.2 acc.1.Dir).2)
  else acc

/-- A value decoded into a `Share` (`object` on a struct): the members are
stored in the order they come, a later one overwriting an earlier; `null`
leaves the struct as it is; anything else is an `UnmarshalTypeError`. -/
def storeShare (v : JSON) (cur : Share) : Share × Bool :=
  match v with
  | JSON.object members => members.foldl storeShareField (cur, false)
  | JSON.null => (cur, false)
  | _ => (cur, true)

/-- The loop of `array` on a slice: element `i` is decoded into the slice's
element `i` where it has one (`cur` is what is left of the slice) and into a
zero `Share` past its end. -/
def storeElems : List JSON → List Share → List Share × Bool
  | [], _ => ([], false)
  | v :: vs, cur =>
    ((storeShare v (cur.headD { Name := [], Dir := [] })).1 :: (storeElems vs cur.tail).1,
      (storeShare v (cur.headD { Name := [], Dir := [] })).2 || (storeElems vs cur.tail).2)

/-- A value decoded into the field `Shares []Share`: an array resets the slice
to its elements, `null` sets it to nil, anything else is an
`UnmarshalTypeError`.  (Elements past the length of a slice that an earlier
`Shares` member of the same object had made longer are taken as zero.) -/
def storeShares (v : JSON) (cur : Option (List Share)) : Option (List Share) × Bool :=
  match v with
  | JSON.array elems =>
    (some (storeElems elems (cur.getD [])).1, (storeElems elems (cur.getD [])).2)
  | JSON.null => (none, false)
  | _ => (cur, true)

/-- One member of the top-level object decoded into a `Config`. -/
def storeConfigField (acc : Config × Bool) (m : List Byte × JSON) : Config × Bool :=
  if keyIs "Shares" m.1 then
    ({ Shares := (storeShares m.2 acc.1.Shares).1 },
      acc.2 || (storeShares m.2 acc.1.Shares).2)
  else acc

/-- `d.value` on the `*Config` passed to `Decode`: an object fills the fields
its keys name, `null` leaves the struct as it is, anything else is an
`UnmarshalTypeError`.  The decoder goes on after such an error and reports
the first one at the end, so the flag says whether there was one. -/
def storeConfig (v : JSON) (cur : Config) : Config × Bool :=
  match v with
  | JSON.object members => members.foldl storeConfigField (cur, false)
  | JSON.null => (cur, false)
  | _ => (cur, true)

/-- The errors of `Decode`. -/
inductive DecodeError where
  /-- `io.EOF`: the input holds no value, only white space if anything. -/
  | eof
  /-- A `SyntaxError`, or `io.ErrUnexpectedEOF` when the input ends inside
  the value. -/
  | malformed
  /-- An `UnmarshalTypeError`: a value of a kind the Go type does not take. -/
  | typeMismatch
deriving DecidableEq, Repr

/-- `json.NewDecoder(f).Decode(a.Config)` on a file holding `data`: the first
JSON value of the input is read and decoded into `cur`; what follows that
value is left unread. -/
def Decode (data : List Byte) (cur : Config) : Config × Option DecodeError :=
  match skipSpace data with
  | [] => (cur, some DecodeError.eof)
  | _ :: _ =>
    match parseValue maxNestingDepth data with
    | none => (cur, some DecodeError.malformed)
    | some (v, _) =>
      ((storeConfig v cur).1,
        if (storeConfig v cur).2 then some DecodeError.typeMismatch else none)

/-! ## flag -/

/-- The errors of `FlagSet.Parse`. -/
inductive FlagError where
  /-- "bad flag syntax": `-`, `--` or `=` where the flag name should start. -/
  | badSyntax
  /-- `ErrHelp`: `-h` or `-help`, which the flag set does not define. -/
  | help
  /-- "flag provided but not defined". -/
  | notDefined
  /-- "flag needs an argument". -/
  | needsArgument
deriving DecidableEq, Repr

/-- The variables bound by `fs.StringVar(&name, "name", "", ...)` and
`fs.StringVar(&dir, "dir", "", ...)`. -/
structure AddDirFlags where
  name : GoString
  dir : GoString
deriving DecidableEq, Repr

/-- `flag.Value.Set` of the string flag called `flagName` (one of `name`,
`dir`). -/
def AddDirFlags.set (fl : AddDirFlags) (flagName value : GoString) : AddDirFlags :=
  if flagName = lit "name" then { fl with name := value } else { fl with dir := value }

/-- `(*FlagSet).Parse` with `ContinueOnError` on the flag set of `adddir`, the
loop over `parseOne` unrolled into a recursion over the arguments: the
variables as the flags seen so far set them, and the error at which parsing
stopped, if any.  Parsing ends without error at the first argument that is
not a flag and at `--`. -/
def parseFlags (fl : AddDirFlags) : List GoString → AddDirFlags × Option FlagError
  | [] => (fl, none)
  | s :: rest =>
    match s with
    | [] => (fl, none)
    | [_] => (fl, none)
    | c0 :: c1 :: cs =>
      if c0.val ≠ 0x2D then (fl, none)
      else if c1.val = 0x2D ∧ cs = [] then (fl, none)
      else
        match (if c1.val = 0x2D then cs else c1 :: cs) with
        | [] => (fl, some FlagError.badSyntax)
        | n0 :: tail =>
          if n0.val = 0x2D ∨ n0.val = 0x3D then (fl, some FlagError.badSyntax)
          else
            let flagName := n0 :: tail.takeWhile (fun c => decide (c.val ≠ 0x3D))
            if flagName ≠ lit "name" ∧ flagName ≠ lit "dir" then
              if flagName = lit "help" ∨ flagName = lit "h" then (fl, some FlagError.help)
              else (fl, some FlagError.notDefined)
            else
              match tail.dropWhile (fun c => decide (c.val ≠ 0x3D)) with
              | _ :: value => parseFlags (fl.set flagName value) rest
              | [] =>
                match rest with
                | [] => (fl, some FlagError.needsArgument)
                | value :: rest1 => parseFlags (fl.set flagName value) rest1

/-! ## text/tabwriter -/

/-- A cell of the writer: its bytes (the source keeps their number and the
bytes in a shared buffer), its width in runes, and whether a tab ended it. -/
structure Cell where
  text : List Byte
  width : Nat
  htab : Bool
deriving DecidableEq, Repr

/-- The state of a `tabwriter.Writer` made by
`NewWriter(os.Stdout, 0, 0, 1, ' ', 0)`: no minimal width, padding 1, padded
with spaces, no flags. -/
structure Writer where
  /-- What has been written to the output so far. -/
  out : List Byte
  /-- The finished lines not yet written. -/
  lines : List (List Cell)
  /-- The cells of the line being collected. -/
  line : List Cell
  /-- The cell being collected. -/
  cell : Cell
  /-- How many bytes of the current cell are counted in its width
  (`pos`, relative to the start of the cell). -/
  counted : Nat
  /-- The byte that ends the escaped text being read, `0` outside one. -/
  endChar : Nat
deriving DecidableEq, Repr

/-- `tabwriter.Escape`. -/
def Escape : Nat := 0xFF

/-- The state after `reset`. -/
def NewWriter : Writer :=
  { out := [], lines := [], line := [], cell := { text := [], width := 0, htab := false },
    counted := 0, endChar := 0 }

/-- `updateWidth`: the runes of the text not yet counted are added to the
width of the cell. -/
def Writer.updateWidth (b : Writer) : Writer :=
  { b with
    cell := { b.cell with width := b.cell.width + RuneCount (b.cell.text.drop b.counted) },
    counted := b.cell.text.length }

/-- `writeLines` for one line under the column widths known so far: each cell,
padded with spaces to the width of its column when that is known, then a
newline, or nothing where the line is the last one buffered (a flush
happens at a cell boundary, so the cell being collected is empty). -/
def writeLine (widths : List Nat) (line : List Cell) (isLast : Bool) : List Byte :=
  (line.enum.map (fun jc =>
      jc.2.text ++ (if jc.1 < widths.length then
        List.replicate (widths.getD jc.1 0 - jc.2.width) (0x20 : Byte) else []))).flatten
    ++ (if isLast then [] else [0x0A])

/-- Whether a line has a cell in the column: `column < len(line)-1`, the last
cell of a line being outside every column. -/
def inColumn (column : Nat) (line : List Cell × Bool) : Bool := decide (column + 1 < line.1.length)

/-- `format`: the lines, each marked as last buffered line or not, written
under the widths of the columns to the left.  A run of lines with a cell in
the next column is a block; its column is as wide as its widest cell plus the
padding, and the block is formatted with that width added. -/
def format : Nat → List Nat → List (List Cell × Bool) → List Byte
  | 0, _, _ => []
  | _ + 1, _, [] => []
  | fuel + 1, widths, l :: rest =>
    if inColumn widths.length l then
      format fuel
          (widths ++ [((l :: rest).takeWhile (inColumn widths.length)).foldl
            (fun w x => max w ((x.1.getD widths.length { text := [], width := 0, htab := false }).width + 1)) 0])
          ((l :: rest).takeWhile (inColumn widths.length))
        ++ format fuel widths ((l :: rest).dropWhile (inColumn widths.length))
    else writeLine widths l.1 l.2 ++ format fuel widths rest

/-- The buffered lines, the last marked. -/
def markLast : List (List Cell) → List (List Cell × Bool)
  | [] => []
  | [l] => [(l, true)]
  | l :: rest => (l, false) :: markLast rest

/-- `terminateCell`: the current cell joins the current line. -/
def Writer.terminateCell (b : Writer) (htab : Bool) : Writer :=
  { b with line := b.line ++ [{ b.cell with htab := htab }],
           cell := { text := [], width := 0, htab := false }, counted := 0 }

/-- `endEscape` for text escaped by `Escape`: the escaped text is counted
without its two `Escape` bytes. -/
def Writer.endEscape (b : Writer) : Writer :=
  { b.updateWidth with
    cell := { b.updateWidth.cell with width := b.updateWidth.cell.width - 2 },
    endChar := 0 }

/-- `flushNoDefers`: a cell being collected is finished, the buffered lines
(the current one last) are formatted and written, and the state is reset. -/
def Writer.flush (b : Writer) : Writer :=
  let b1 := if b.cell.text.length > 0 then
      ((if b.endChar ≠ 0 then b.endEscape else b).terminateCell false) else b
  let all := markLast (b1.lines ++ [b1.line])
  { NewWriter with
    out := b1.out ++ format (all.length + (all.map (fun l => l.1.length)).sum + 1) [] all }

/-- The body of the loop of `Write` for one byte.  The source appends the text
between two special bytes in one piece; here each byte joins the cell as it is
read. -/
def Writer.writeByte (b : Writer) (ch : Byte) : Writer :=
  if b.endChar = 0 then
    if ch.val = 0x09 ∨ ch.val = 0x0B ∨ ch.val = 0x0A ∨ ch.val = 0x0C then
      let b1 := b.updateWidth.terminateCell (decide (ch.val = 0x09))
      if ch.val = 0x0A ∨ ch.val = 0x0C then
        let b2 := { b1 with lines := b1.lines ++ [b1.line], line := [] }
        if ch.val = 0x0C ∨ b1.line.length = 1 then b2.flush else b2
      else b1
    else if ch.val = Escape then
      let b1 := b.updateWidth
      { b1 with cell := { b1.cell with text := b1.cell.text ++ [ch] }, endChar := Escape }
    else { b with cell := { b.cell with text := b.cell.text ++ [ch] } }
  else
    let b1 := { b with cell := { b.cell with text := b.cell.text ++ [ch] } }
    if ch.val = b.endChar then b1.endEscape else b1

/-- `(*Writer).Write`. -/
def Writer.Write (b : Writer) (buf : List Byte) : Writer := buf.foldl Writer.writeByte b

/-- `(*Writer).Flush`. -/
def Writer.Flush (b : Writer) : Writer := b.flush

/-! ## The operating system -/

deriving instance DecidableEq for Except

/-- A cleaned absolute path, as the list of its components; `filepath.Join`
is concatenation and `filepath.Dir` drops the last component. -/
abbrev Path := List String

/-- What a path of the file system names. -/
inductive Node where
  | dir
  | file (data : List Byte)
deriving DecidableEq, Repr

/-- An error of the operating system, as far as the program tells them apart:
`os.IsNotExist` holds of `notExist` (`ENOENT`) only, and not of `notDir`
(`ENOTDIR`). -/
inductive OsError where
  | notExist
  | notDir
  | other
deriving DecidableEq, Repr

/-- A call into the operating system, recorded in the order made. -/
inductive Call where
  | userConfigDir
  | stat (p : Path)
  | mkdirAll (p : Path)
  | create (p : Path)
  | write (p : Path)
  | openFile (p : Path)
deriving DecidableEq, Repr

/-- A Go `error` of the program. -/
inductive GoError where
  | os (e : OsError)
  | json (e : DecodeError)
  | errorf (msg : String)
  /-- `fmt.Errorf(pre + ": %w", err)`. -/
  | wrap (pre : String) (err : GoError)
deriving DecidableEq, Repr

/-- A line written by the log handler `cli.New(os.Stderr)`: level and message.
Entries of level debug are below the logger's level and are not written; they
are left out of the model. -/
inductive LogEntry where
  | error (msg : String)
  | fatal (msg : String)
deriving DecidableEq, Repr

/-- The world the process runs in. -/
structure World where
  /-- The file system: what each path names, `none` where there is no entry. -/
  nodes : Path → Option Node
  /-- Paths every operation on which fails with an error other than
  `ErrNotExist` (permissions, I/O errors). -/
  faulty : Path → Bool
  /-- Whether writing file contents fails. -/
  diskFull : Bool
  /-- The result of `os.UserConfigDir()`, `none` when it returns an error. -/
  configDir : Option Path
  /-- Standard output. -/
  stdout : List Byte
  /-- The log on standard error. -/
  log : List LogEntry
  /-- The operating system calls made so far. -/
  calls : List Call

/-- The world with one more call recorded. -/
def World.record (w : World) (c : Call) : World := { w with calls := w.calls ++ [c] }

/-- Whether the path names a file. -/
def World.isFile (w : World) (p : Path) : Bool :=
  match w.nodes p with
  | some (Node.file _) => true
  | _ => false

/-- Whether one of the paths above `p` names a file and not a directory. -/
def World.underFile (w : World) (p : Path) : Bool := p.dropLast.inits.any w.isFile

/-- The error of an operation on a path that has no node: `ENOTDIR` where one
of the paths above it is a file, `ENOENT` otherwise. -/
def World.missing (w : World) (p : Path) : OsError :=
  if w.underFile p then OsError.notDir else OsError.notExist

/-- `os.Stat`, as far as `mkdir` looks at it: whether the path is a directory. -/
def osStat (w : World) (p : Path) : Except OsError Bool × World :=
  (if w.faulty p then Except.error OsError.other
   else
     match w.nodes p with
     | none => Except.error (w.missing p)
     | some Node.dir => Except.ok true
     | some (Node.file _) => Except.ok false,
   w.record (Call.stat p))

/-- `os.MkdirAll`: the path and the directories above it are created; it fails
with `ENOTDIR` where the path or one above it is a file. -/
def osMkdirAll (w : World) (p : Path) : Option OsError × World :=
  if w.faulty p then (some OsError.other, w.record (Call.mkdirAll p))
  else if p.inits.any w.isFile then (some OsError.notDir, w.record (Call.mkdirAll p))
  else
    (none,
      { w.record (Call.mkdirAll p) with
        nodes := fun q => if q ∈ p.inits then some Node.dir else w.nodes q })

/-- `os.Create`: the file is created or truncated; it fails where the path is a
directory, where one of the paths above it is a file, and where the directory
it lies in does not exist. -/
def osCreate (w : World) (p : Path) : Option OsError × World :=
  if w.faulty p ∨ w.nodes p = some Node.dir then (some OsError.other, w.record (Call.create p))
  else if w.nodes p.dropLast ≠ some Node.dir then
    (some (w.missing p), w.record (Call.create p))
  else
    (none,
      { w.record (Call.create p) with
        nodes := fun q => if q = p then some (Node.file []) else w.nodes q })

/-- `(*os.File).Write` of the whole of `data` to the file just created; on a
full disk nothing is written. -/
def osWrite (w : World) (p : Path) (data : List Byte) : Option OsError × World :=
  if w.diskFull then (some OsError.other, w.record (Call.write p))
  else
    (none,
      { w.record (Call.write p) with
        nodes := fun q => if q = p then some (Node.file data) else w.nodes q })

/-- `os.Open` followed by reading the file to its end: the contents, or
`none` where the path is a directory, which can be opened but not read.  Where
the path has no node the error is `ENOENT`, unless one of the paths above it
is a file: then it is `ENOTDIR`, of which `os.IsNotExist` does not hold. -/
def osOpen (w : World) (p : Path) : Except OsError (Option (List Byte)) × World :=
  (if w.faulty p then Except.error OsError.other
   else
     match w.nodes p with
     | none => Except.error (w.missing p)
     | some Node.dir => Except.ok none
     | some (Node.file data) => Except.ok (some data),
   w.record (Call.openFile p))

/-- `fmt.Println(s)` to standard output. -/
def World.println (w : World) (s : List Byte) : World :=
  { w with stdout := w.stdout ++ s ++ [0x0A] }

/-- A log entry written to standard error. -/
def World.logged (w : World) (e : LogEntry) : World := { w with log := w.log ++ [e] }

/-- The white space `strings.TrimSpace` removes from ASCII text. -/
def isTrimmed (c : Byte) : Bool :=
  decide (c.val = 0x20 ∨ c.val = 0x09 ∨ c.val = 0x0A ∨ c.val = 0x0B ∨ c.val = 0x0C
    ∨ c.val = 0x0D)

/-- `strings.TrimSpace` on ASCII text. -/
def TrimSpace (s : List Byte) : List Byte :=
  ((s.dropWhile isTrimmed).reverse.dropWhile isTrimmed).reverse

/-! ## vault/app.go -/

/-- The exit code `OK`. -/
def OK : Nat := 0
/-- The exit code `Error`. -/
def Error : Nat := 1
/-- The exit code `Warn`. -/
def Warn : Nat := 2

/-- `type App struct { ConfigLoc string; Config *Config }`. -/
structure App where
  ConfigLoc : Path
  Config : Config
deriving DecidableEq, Repr

/-- The text of `printAddDirUsage`. -/
def addDirUsage : String := "
vault config adddir --name VALUE --dir VALUE

Calling adddir adds a new directory to backup. The provided name will be used as
the share name, which corresponds to a top-level \"folder\" on S3. The directory
provided will be backed up recursively, preserving the file names and orders
under the top-level share.
"

/-- The text of `printConfigUsage`. -/
def configUsage : String := "
vault config COMMAND [OPTION...]

Running vault with the config command allows you to view and/or modify the app
configuration using one of the subcommands below.

COMMAND:
    set     Set a new configuration value
    help    Print this help
"

/-- The text of `printUsage`. -/
def usage : String := "
vault [COMMAND] [OPTION...]

Running vault with no command starts the app in service mode. In this mode, the
backup process will be performed periodically in a loop. This is how the Windows
Service Controller starts up the app. To run in interactive mode, one of the
commands below must be present.

COMMAND:
    config    View or modify the app configuration
    help      Print this help
"

/-- `func (a *App) printAddDirUsage()`. -/
def printAddDirUsage (w : World) : World := w.println (TrimSpace (lit addDirUsage))

/-- `func (a *App) printConfigUsage()`. -/
def printConfigUsage (w : World) : World := w.println (TrimSpace (lit configUsage))

/-- `func (a *App) printUsage()`. -/
def printUsage (w : World) : World := w.println (TrimSpace (lit usage))

/-- `func mkdir(dir string) error`. -/
def mkdir (w : World) (dir : Path) : Option GoError × World :=
  match osStat w dir with
  | (Except.ok isDir, w1) =>
    if !isDir then (some (GoError.errorf "mkdir: not a directory"), w1) else (none, w1)
  | (Except.error err, w1) =>
    if err ≠ OsError.notExist then (some (GoError.wrap "mkdir" (GoError.os err)), w1)
    else
      match osMkdirAll w1 dir with
      | (some err1, w2) => (some (GoError.wrap "mkdir" (GoError.os err1)), w2)
      | (none, w2) => (none, w2)

/-- `func (a *App) saveConfig() error`. -/
def App.saveConfig (a : App) (w : World) : Option GoError × World :=
  match mkdir w a.ConfigLoc.dropLast with
  | (some err, w1) => (some (GoError.wrap "save config" err), w1)
  | (none, w1) =>
    match osCreate w1 a.ConfigLoc with
    | (some err, w2) => (some (GoError.wrap "save config" (GoError.os err)), w2)
    | (none, w2) =>
      match osWrite w2 a.ConfigLoc (encodeConfig a.Config) with
      | (some err, w3) => (some (GoError.wrap "save config" (GoError.os err)), w3)
      | (none, w3) => (none, w3)

/-- `func (a *App) loadConfig() error`: the error returned, the app with the
configuration as the decoder left it, and the world. -/
def App.loadConfig (a : App) (w : World) : Option GoError × App × World :=
  match osOpen w a.ConfigLoc with
  | (Except.error err, w1) =>
    if err = OsError.notExist then (none, a, w1)
    else (some (GoError.wrap "load config" (GoError.os err)), a, w1)
  | (Except.ok none, w1) => (some (GoError.wrap "load config" (GoError.os OsError.other)), a, w1)
  | (Except.ok (some data), w1) =>
    match Decode data a.Config with
    | (c, some err) =>
      (some (GoError.wrap "load config" (GoError.json err)), { a with Config := c }, w1)
    | (c, none) => (none, { a with Config := c }, w1)

/-- The app `NewApp` makes before it loads the configuration:
`&App{ConfigLoc: filepath.Join(configDir, "vault", "config.json"),
Config: &Config{}}`. -/
def App.init (configDir : Path) : App :=
  { ConfigLoc := configDir ++ ["vault", "config.json"], Config := { Shares := none } }

/-- `func NewApp() (*App, error)`. -/
def NewApp (w : World) : Except GoError App × World :=
  match w.configDir with
  | none =>
    (Except.error (GoError.wrap "new app" (GoError.os OsError.other)),
      w.record Call.userConfigDir)
  | some configDir =>
    match (App.init configDir).loadConfig (w.record Call.userConfigDir) with
    | (some err, _, w1) => (Except.error (GoError.wrap "new app" err), w1)
    | (none, app, w1) => (Except.ok app, w1)

/-- `func (a *App) handleListConfig(args ...string) int`. -/
def App.handleListConfig (a : App) (w : World) (_args : List GoString) : Nat × App × World :=
  let tw := (a.Config.shareList.foldl
    (fun (tw : Writer) share => tw.Write (share.Name ++ [0x3A, 0x09] ++ share.Dir ++ [0x0A]))
    NewWriter).Flush
  (OK, a, { w.println (lit "=== Shares") with
    stdout := (w.println (lit "=== Shares")).stdout ++ tw.out })

/-- The variables `name` and `dir` after `fs.Parse(args)` on the flag set of
`adddir`; both start empty.  The error `fs.Parse` returns is dropped, as in
the source. -/
def parsedFlags (args : List GoString) : AddDirFlags :=
  (parseFlags { name := [], dir := [] } args).1

/-- The app after `a.Config.AddShare(name, dir)`. -/
def App.added (a : App) (fl : AddDirFlags) : App :=
  { a with Config := a.Config.AddShare fl.name fl.dir }

/-- `func (a *App) handleAddDir(args ...string) int`. -/
def App.handleAddDir (a : App) (w : World) (args : List GoString) : Nat × App × World :=
  if (parsedFlags args).name = [] ∨ (parsedFlags args).dir = [] then
    (Error, a, printAddDirUsage w)
  else
    match (a.added (parsedFlags args)).saveConfig w with
    | (some _, w1) =>
      (Error, a.added (parsedFlags args), w1.logged (LogEntry.error "failed to save config"))
    | (none, w1) => (OK, a.added (parsedFlags args), w1)

/-- `func (a *App) handleConfig(args ...string) int`. -/
def App.handleConfig (a : App) (w : World) (args : List GoString) : Nat × App × World :=
  match args with
  | [] => (Error, a, printConfigUsage w)
  | command :: rest =>
    if command = lit "adddir" then a.handleAddDir w rest
    else if command = lit "list" then a.handleListConfig w rest
    else if command = lit "help" then (OK, a, printConfigUsage w)
    else (Error, a, printConfigUsage w)

/-- `func (a *App) Run(command string, args ...string) int`. -/
def App.Run (a : App) (w : World) (command : GoString) (args : List GoString) :
    Nat × App × World :=
  if command = lit "config" then a.handleConfig w args
  else if command = lit "help" then (OK, a, printUsage w)
  else (Error, a, printUsage w)

/-! ## main.go -/

/-- How the process ends. -/
inductive Outcome where
  /-- `os.Exit(code)`. -/
  | exit (code : Nat)
  /-- `panic(err)`. -/
  | panic (err : GoError)
deriving DecidableEq, Repr

/-- `func main()` on the arguments `os.Args` (the program name first):
how the process ends, the app as the command left it, if one was made, and
the world.  `log.Fatal` writes its entry and exits with code 1. -/
def main (w : World) (osArgs : List GoString) : Outcome × Option App × World :=
  match NewApp w with
  | (Except.error err, w1) => (Outcome.panic err, none, w1)
  | (Except.ok app, w1) =>
    if osArgs.length < 2 then
      (Outcome.exit 1, some app, w1.logged (LogEntry.fatal "add the service runner here"))
    else
      (Outcome.exit (app.Run w1 (osArgs.getD 1 []) (osArgs.drop 2)).1,
        some (app.Run w1 (osArgs.getD 1 []) (osArgs.drop 2)).2.1,
        (app.Run w1 (osArgs.getD 1 []) (osArgs.drop 2)).2.2)

/-! ## Notions of the specification -/

/-- The exit code table of the specification (section 6 and the exit codes of
section 4.2): `help` gives 0; `config help` and `config list` give 0;
`config adddir` gives 0 when both flags are parsed non-empty and the save
succeeds, and 1 otherwise; everything else gives 1. -/
def exitCodeTable (a : App) (w : World) (command : GoString) (args : List GoString) : Nat :=
  if command = lit "help" then 0
  else if command = lit "config" then
    match args with
    | [] => 1
    | sub :: rest =>
      if sub = lit "help" ∨ sub = lit "list" then 0
      else if sub = lit "adddir" then
        if (parsedFlags rest).name ≠ [] ∧ (parsedFlags rest).dir ≠ []
            ∧ ((a.added (parsedFlags rest)).saveConfig w).1 = none
        then 0 else 1
      else 1
  else 1

/-- The bytes `tabwriter` passes on as text: every byte but tab, vertical tab,
newline, form feed (which end a cell) and `Escape`. -/
def isPlain (c : Byte) : Bool :=
  decide (c.val ≠ 0x09 ∧ c.val ≠ 0x0B ∧ c.val ≠ 0x0A ∧ c.val ≠ 0x0C ∧ c.val ≠ 0xFF)

/-- A share whose name and directory consist of plain bytes. -/
def Share.plain (s : Share) : Bool := s.Name.all isPlain && s.Dir.all isPlain

/-- The width of the name column of a listing: one more than the largest
number of runes in a name followed by its colon. -/
def listWidth (shares : List Share) : Nat :=
  shares.foldl (fun w s => max w (RuneCount (s.Name ++ [0x3A]) + 1)) 0

/-- A row of a listing under a name column `width` runes wide: the name, a
colon, spaces up to the column of the directories, the directory, a newline. -/
def listRow (width : Nat) (s : Share) : List Byte :=
  s.Name ++ [0x3A] ++ List.replicate (width - RuneCount (s.Name ++ [0x3A])) (0x20 : Byte)
    ++ s.Dir ++ [0x0A]

/-- A value that a field of type `string` does not take: anything but a
string and `null`. -/
def notStringOrNull : JSON → Bool
  | JSON.string _ => false
  | JSON.null => false
  | _ => true

/-- A value that does not fit a `Share`: anything but an object and `null`,
and an object with a `Name` or `Dir` member that does not fit a string. -/
def shareMismatch : JSON → Bool
  | JSON.object members =>
    members.any (fun m => (keyIs "Name" m.1 || keyIs "Dir" m.1) && notStringOrNull m.2)
  | JSON.null => false
  | _ => true

/-- A value that does not fit `[]Share`: anything but an array and `null`, and
an array with an element that does not fit a `Share`. -/
def sharesMismatch : JSON → Bool
  | JSON.array elems => elems.any shareMismatch
  | JSON.null => false
  | _ => true

/-- A value that does not fit the expected structure
`{"Shares": [{"Name": string, "Dir": string}, ...]}`: anything but an object
and `null`, and an object with a `Shares` member that does not fit `[]Share`. -/
def configMismatch : JSON → Bool
  | JSON.object members => members.any (fun m => keyIs "Shares" m.1 && sharesMismatch m.2)
  | JSON.null => false
  | _ => true

/-! ## Concrete inputs -/

/-- A world in which the user configuration directory `/home` exists and is
empty, and nothing fails. -/
def freshWorld : World :=
  { nodes := fun p => if p = ["home"] then some Node.dir else none,
    faulty := fun _ => false, diskFull := false, configDir := some ["home"],
    stdout := [], log := [], calls := [] }

/-- As `freshWorld`, but `/home/vault` is a regular file, so the directory of
the configuration file cannot be made, and opening the configuration file
fails with `ENOTDIR`. -/
def blockedWorld : World :=
  { freshWorld with
    nodes := fun p =>
      if p = ["home"] then some Node.dir
      else if p = ["home", "vault"] then some (Node.file [])
      else none }

/-- The configuration path of `freshWorld`. -/
def homeConfig : Path := ["home", "vault", "config.json"]

/-- A world whose configuration file holds `data`. -/
def worldWithFile (data : List Byte) : World :=
  { freshWorld with
    nodes := fun p =>
      if p = ["home"] ∨ p = ["home", "vault"] then some Node.dir
      else if p = homeConfig then some (Node.file data)
      else none }

/-- The app `NewApp` makes in `freshWorld`: at `homeConfig`, with no shares. -/
def freshApp : App := App.init ["home"]

/-- The share `docs` at `/tmp/docs`. -/
def docsShare : Share := { Name := lit "docs", Dir := lit "/tmp/docs" }

/-- The flag values `docs` and `/tmp/docs`. -/
def docsFlags : AddDirFlags := { name := lit "docs", dir := lit "/tmp/docs" }

/-- The arguments `--name docs --dir /tmp/docs`. -/
def docsArgs : List GoString := [lit "--name", lit "docs", lit "--dir", lit "/tmp/docs"]

/-- An app holding the shares `docs` at `/tmp/docs` and `p` at `/tmp/p`. -/
def listedApp : App :=
  { freshApp with
    Config := { Shares := some [docsShare, { Name := lit "p", Dir := lit "/tmp/p" }] } }

/-- An app holding a share whose name contains a tab, and a second share. -/
def tabbedApp : App :=
  { freshApp with
    Config := { Shares := some [{ Name := lit "a\tb", Dir := lit "x" },
                                { Name := lit "ccc", Dir := lit "y" }] } }

/-- An app holding a share whose name is the single byte 0xFF, which is not
valid UTF-8. -/
def latin1App : App :=
  { freshApp with Config := { Shares := some [{ Name := [0xFF], Dir := lit "/tmp/x" }] } }

/-- The saved configuration holding `docs`, with the bytes `oops` after it. -/
def trailingData : List Byte := encodeConfig { Shares := some [docsShare] } ++ lit "oops"

/-! ## Notions used in the proofs -/

/-- The two cells `tabwriter` collects for the line of a share. -/
def rowCells (s : Share) : List Cell :=
  [{ text := s.Name ++ [0x3A], width := RuneCount (s.Name ++ [0x3A]), htab := true },
   { text := s.Dir, width := RuneCount s.Dir, htab := false }]

/-- The second byte of a sequence of three bytes is in the range its first
byte allows. -/
def secondOfThree (b0 b1 : Nat) : Prop :=
  (0xE0 ≤ b0 ∧ b0 ≤ 0xEF)
  ∧ (if b0 = 0xE0 then 0xA0 else 0x80) ≤ b1 ∧ b1 ≤ (if b0 = 0xED then 0x9F else 0xBF)

/-- The second byte of a sequence of four bytes is in the range its first
byte allows. -/
def secondOfFour (b0 b1 : Nat) : Prop :=
  (0xF0 ≤ b0 ∧ b0 ≤ 0xF4)
  ∧ (if b0 = 0xF0 then 0x90 else 0x80) ≤ b1 ∧ b1 ≤ (if b0 = 0xF4 then 0x8F else 0xBF)

/-- The shapes of a sequence that `DecodeRune` takes for a rune of more than
one byte. -/
def validShape (s : List Byte) : Prop :=
  (∃ b0 b1 t, s = b0 :: b1 :: t ∧ (0xC2 ≤ b0.val ∧ b0.val ≤ 0xDF)
      ∧ (0x80 ≤ b1.val ∧ b1.val ≤ 0xBF))
  ∨ (∃ b0 b1 b2 t, s = b0 :: b1 :: b2 :: t ∧ secondOfThree b0.val b1.val
      ∧ (0x80 ≤ b2.val ∧ b2.val ≤ 0xBF))
  ∨ (∃ b0 b1 b2 b3 t, s = b0 :: b1 :: b2 :: b3 :: t ∧ secondOfFour b0.val b1.val
      ∧ (0x80 ≤ b2.val ∧ b2.val ≤ 0xBF) ∧ (0x80 ≤ b3.val ∧ b3.val ≤ 0xBF))

/-- The bytes between the quotes of the literal `appendString` writes. -/
def escaped (s : GoString) : List Byte := appendStringAux s.length s

/-- A piece of a string literal that the scanner passes as a whole. -/
def scanOK (chunk : List Byte) : Prop :=
  ∀ tail, scanString (chunk ++ tail) = (scanString tail).map (fun p => (chunk ++ p.1, p.2))

/-- A piece of a string literal that `unquoteBytes` turns into `decoded` in one
step of its loop. -/
def unquoteOK (chunk decoded : List Byte) : Prop :=
  ∀ fuel tail,
    unquoteAux (fuel + 1) (chunk ++ tail) = (unquoteAux fuel tail).map (fun t => decoded ++ t)

/-- The value the scanner delimits in the encoding of a share. -/
def shareJSON (s : Share) : JSON :=
  JSON.object [(lit "Name", JSON.string (escaped s.Name)),
    (lit "Dir", JSON.string (escaped s.Dir))]

/-- The value the scanner delimits in the encoding of the field `Shares`. -/
def sharesJSON : Option (List Share) → JSON
  | none => JSON.null
  | some l => JSON.array (l.map shareJSON)

/-- The value the scanner delimits in the encoding of a configuration. -/
def configJSON (c : Config) : JSON := JSON.object [(lit "Shares", sharesJSON c.Shares)]

/-! ## Theorems -/

/-- C1: `AddShare name dir` leaves the share sequence equal to the previous
sequence followed by exactly the one new element: the length grows by one, the
earlier shares keep their positions and values, nothing is sorted, merged or
rejected (empty strings and duplicates included).  On an empty config, adding
`docs` then `pics` lists them in that order, and adding the same pair twice
gives two equal entries. -/
theorem AddShare_appends (c : Config) (name dir : GoString) :
    (c.AddShare name dir).shareList = c.shareList ++ [{ Name := name, Dir := dir }]
    ∧ (c.AddShare name dir).shareList.length = c.shareList.length + 1
    ∧ (c.AddShare name dir).shareList.take c.shareList.length = c.shareList
    ∧ (((Config.mk none).AddShare (lit "docs") (lit "/tmp/docs")).AddShare
          (lit "pics") (lit "/tmp/pics")).shareList
        = [{ Name := lit "docs", Dir := lit "/tmp/docs" },
           { Name := lit "pics", Dir := lit "/tmp/pics" }]
    ∧ ((c.AddShare name dir).AddShare name dir).shareList
        = c.shareList ++ [{ Name := name, Dir := dir }, { Name := name, Dir := dir }] := by
  refine ⟨rfl, ?_, ?_, rfl, ?_⟩
  · simp [Config.AddShare, Config.shareList]
  · simp [Config.AddShare, Config.shareList]
  · simp [Config.AddShare, Config.shareList]

/-- The result of `handleAddDir` when a value is missing. -/
theorem handleAddDir_of_missing (a : App) (w : World) (args : List GoString)
    (h : (parsedFlags args).name = [] ∨ (parsedFlags args).dir = []) :
    a.handleAddDir w args = (Error, a, printAddDirUsage w) := by
  unfold App.handleAddDir
  exact if_pos h

/-- The result of `handleAddDir` when both values are given. -/
theorem handleAddDir_of_values (a : App) (w : World) (args : List GoString)
    (hname : (parsedFlags args).name ≠ []) (hdir : (parsedFlags args).dir ≠ []) :
    a.handleAddDir w args =
      match (a.added (parsedFlags args)).saveConfig w with
      | (some _, w1) =>
        (Error, a.added (parsedFlags args), w1.logged (LogEntry.error "failed to save config"))
      | (none, w1) => (OK, a.added (parsedFlags args), w1) := by
  unfold App.handleAddDir
  exact if_neg (fun h => h.elim hname hdir)

/-- C2: when the value `fs.Parse` leaves in `name` or in `dir` is empty (the
flag absent or given as the empty string), `handleAddDir` returns the error
code 1 and prints the usage of `adddir`; the app, and so `Config.Shares`, is
unchanged, no operating system call is made (`saveConfig` is not invoked) and
the file system is as it was. -/
theorem handleAddDir_missing_value (a : App) (w : World) (args : List GoString)
    (h : (parsedFlags args).name = [] ∨ (parsedFlags args).dir = []) :
    (a.handleAddDir w args).1 = Error
    ∧ (a.handleAddDir w args).2.1 = a
    ∧ (a.handleAddDir w args).2.2.calls = w.calls
    ∧ (a.handleAddDir w args).2.2.nodes = w.nodes
    ∧ (a.handleAddDir w args).2.2.stdout
        = w.stdout ++ TrimSpace (lit addDirUsage) ++ [0x0A] := by
  rw [handleAddDir_of_missing a w args h]
  exact ⟨rfl, rfl, rfl, rfl, rfl⟩

/-- C2, at `--name "" --dir /tmp/docs` on an app that already holds a share. -/
theorem handleAddDir_missing_value_witness :
    ((parsedFlags [lit "--name", lit "", lit "--dir", lit "/tmp/docs"]).name = []
      ∨ (parsedFlags [lit "--name", lit "", lit "--dir", lit "/tmp/docs"]).dir = [])
    ∧ ((freshApp.added docsFlags).handleAddDir freshWorld
        [lit "--name", lit "", lit "--dir", lit "/tmp/docs"]).1 = 1
    ∧ ((freshApp.added docsFlags).handleAddDir freshWorld
        [lit "--name", lit "", lit "--dir", lit "/tmp/docs"]).2.1.Config.shareList = [docsShare]
    ∧ ((freshApp.added docsFlags).handleAddDir freshWorld
        [lit "--name", lit "", lit "--dir", lit "/tmp/docs"]).2.2.calls = [] :=
  have h := handleAddDir_missing_value (freshApp.added docsFlags) freshWorld
    [lit "--name", lit "", lit "--dir", lit "/tmp/docs"] (Or.inl (by decide))
  ⟨Or.inl (by decide), h.1, by rw [h.2.1]; rfl, by rw [h.2.2.1]; rfl⟩

/-- C3, as the code has it: when `config adddir` is run with non-empty `--name`
and `--dir` and saving the configuration fails, the command returns the error
code 1 and logs "failed to save config"; the share appended before the save
stays in memory, so `Config.Shares` after the failed command is
`Config.Shares` before it followed by the new share. -/
theorem handleAddDir_save_failure (a : App) (w : World) (args : List GoString)
    (hname : (parsedFlags args).name ≠ []) (hdir : (parsedFlags args).dir ≠ [])
    (hsave : ((a.added (parsedFlags args)).saveConfig w).1 ≠ none) :
    (a.handleAddDir w args).1 = Error
    ∧ (a.handleAddDir w args).2.1.Config.shareList
        = a.Config.shareList
          ++ [{ Name := (parsedFlags args).name, Dir := (parsedFlags args).dir }]
    ∧ (a.handleAddDir w args).2.2.log
        = ((a.added (parsedFlags args)).saveConfig w).2.log
          ++ [LogEntry.error "failed to save config"] := by
  rw [handleAddDir_of_values a w args hname hdir]
  revert hsave
  generalize (a.added (parsedFlags args)).saveConfig w = r
  obtain ⟨e, w1⟩ := r
  cases e with
  | none => intro h; exact absurd rfl h
  | some err => intro _; exact ⟨rfl, rfl, rfl⟩

/-- C3, at `--name docs --dir /tmp/docs` where `/home/vault` is a file. -/
theorem handleAddDir_save_failure_witness :
    (freshApp.handleAddDir blockedWorld docsArgs).1 = 1
    ∧ (freshApp.handleAddDir blockedWorld docsArgs).2.1.Config.shareList
        = freshApp.Config.shareList ++ [docsShare]
    ∧ (freshApp.handleAddDir blockedWorld docsArgs).2.2.log
        = [LogEntry.error "failed to save config"] :=
  have h := handleAddDir_save_failure freshApp blockedWorld docsArgs (by decide) (by decide)
    (by decide)
  ⟨h.1, h.2.1, by rw [h.2.2]; rfl⟩

/-- C3 as stated fails: in a world where the directory of the configuration
file cannot be made, `config adddir --name docs --dir /tmp/docs` has both
values non-empty, the save fails, the command returns 1, and `Config.Shares`
afterwards holds the new share and so differs from `Config.Shares` before. -/
theorem handleAddDir_save_failure_keeps_share :
    (parsedFlags docsArgs).name ≠ []
    ∧ (parsedFlags docsArgs).dir ≠ []
    ∧ ((freshApp.added (parsedFlags docsArgs)).saveConfig blockedWorld).1
        = some (GoError.wrap "save config" (GoError.errorf "mkdir: not a directory"))
    ∧ (freshApp.handleAddDir blockedWorld docsArgs).1 = 1
    ∧ freshApp.Config.shareList = []
    ∧ (freshApp.handleAddDir blockedWorld docsArgs).2.1.Config.shareList = [docsShare]
    ∧ (freshApp.handleAddDir blockedWorld docsArgs).2.1.Config.shareList
        ≠ freshApp.Config.shareList := by
  decide

/-- C4 fails on the code: for `--name docs --dir /tmp/docs --bogus` the flag
set reports "flag provided but not defined", but `handleAddDir` drops that
error; both values were already set, so the share is appended, the
configuration file is written and the command returns 0. -/
theorem handleAddDir_drops_parse_error :
    (parseFlags { name := [], dir := [] } (docsArgs ++ [lit "--bogus"])).2
        = some FlagError.notDefined
    ∧ (freshApp.handleAddDir freshWorld (docsArgs ++ [lit "--bogus"])).1 = 0
    ∧ (freshApp.handleAddDir freshWorld (docsArgs ++ [lit "--bogus"])).2.1.Config.shareList
        = [docsShare]
    ∧ (freshApp.handleAddDir freshWorld (docsArgs ++ [lit "--bogus"])).2.2.nodes
          ["home", "vault", "config.json"]
        = some (Node.file (encodeConfig { Shares := some [docsShare] }))
    ∧ (freshApp.handleAddDir freshWorld (docsArgs ++ [lit "--bogus"])).2.2.calls
        = [Call.stat ["home", "vault"], Call.mkdirAll ["home", "vault"],
           Call.create ["home", "vault", "config.json"],
           Call.write ["home", "vault", "config.json"]] := by
  decide

/-- C5: the exit code of `Run` is the one the table gives, for every command
and argument list, and it is never `Warn`. -/
theorem Run_exit_code (a : App) (w : World) (command : GoString) (args : List GoString) :
    (a.Run w command args).1 = exitCodeTable a w command args
    ∧ (a.Run w command args).1 ≠ Warn := by
  have key : (a.Run w command args).1 = exitCodeTable a w command args := by
    unfold App.Run exitCodeTable
    by_cases hc : command = lit "config"
    · have hh : ¬ command = lit "help" := by rw [hc]; decide
      rw [if_pos hc, if_neg hh, if_pos hc]
      unfold App.handleConfig
      cases args with
      | nil => rfl
      | cons sub rest =>
        simp only []
        by_cases h1 : sub = lit "adddir"
        · have h2 : ¬ (sub = lit "help" ∨ sub = lit "list") := by rw [h1]; decide
          rw [if_pos h1, if_neg h2, if_pos h1]
          by_cases hv : (parsedFlags rest).name = [] ∨ (parsedFlags rest).dir = []
          · rw [handleAddDir_of_missing a w rest hv, if_neg (fun h => hv.elim h.1 h.2.1)]
            rfl
          · have hn : (parsedFlags rest).name ≠ [] := fun h => hv (Or.inl h)
            have hd : (parsedFlags rest).dir ≠ [] := fun h => hv (Or.inr h)
            rw [handleAddDir_of_values a w rest hn hd]
            generalize (a.added (parsedFlags rest)).saveConfig w = r
            obtain ⟨e, w1⟩ := r
            cases e with
            | none => rw [if_pos ⟨hn, hd, rfl⟩]; rfl
            | some err => rw [if_neg (fun h => Option.noConfusion h.2.2)]; rfl
        · rw [if_neg h1]
          by_cases h2 : sub = lit "list"
          · rw [if_pos h2, if_pos (Or.inr h2)]; rfl
          · rw [if_neg h2]
            by_cases h3 : sub = lit "help"
            · rw [if_pos h3, if_pos (Or.inl h3)]; rfl
            · rw [if_neg h3, if_neg (fun h => h.elim h3 h2), if_neg h1]; rfl
    · rw [if_neg hc]
      by_cases hh : command = lit "help"
      · rw [if_pos hh, if_pos hh]; rfl
      · rw [if_neg hh, if_neg hh, if_neg hc]; rfl
  refine ⟨key, ?_⟩
  rw [key]
  unfold exitCodeTable Warn
  split_ifs
  · decide
  · split
    · decide
    · split_ifs <;> decide
  · decide

/-- `loadConfig` where the configuration path has no node: `os.Open` fails,
and only `ENOENT` is taken for an absent file. -/
theorem loadConfig_of_none (a : App) (w : World) (hn : w.nodes a.ConfigLoc = none) :
    a.loadConfig w =
      (if w.faulty a.ConfigLoc then
          some (GoError.wrap "load config" (GoError.os OsError.other))
        else if w.underFile a.ConfigLoc then
          some (GoError.wrap "load config" (GoError.os OsError.notDir))
        else none,
        a, w.record (Call.openFile a.ConfigLoc)) := by
  unfold App.loadConfig osOpen World.missing
  by_cases hf : w.faulty a.ConfigLoc = true
  · simp [hf]
  · by_cases hu : w.underFile a.ConfigLoc = true
    · simp [hf, hn, hu]
    · simp [hf, hn, hu]

/-- `loadConfig` on a readable file: the result of the decoder. -/
theorem loadConfig_of_file (a : App) (w : World) (data : List Byte)
    (hf : w.faulty a.ConfigLoc = false) (hn : w.nodes a.ConfigLoc = some (Node.file data)) :
    a.loadConfig w =
      ((Decode data a.Config).2.map (fun e => GoError.wrap "load config" (GoError.json e)),
        { a with Config := (Decode data a.Config).1 }, w.record (Call.openFile a.ConfigLoc)) := by
  unfold App.loadConfig osOpen
  simp only [hf, hn, Bool.false_eq_true, if_false]
  rcases h : Decode data a.Config with ⟨c, _ | e⟩ <;> rfl

/-- `loadConfig` touches nothing of the world but the record of calls. -/
theorem loadConfig_frame (a : App) (w : World) :
    (a.loadConfig w).2.2 = w.record (Call.openFile a.ConfigLoc) := by
  unfold App.loadConfig
  have hopen : osOpen w a.ConfigLoc
      = ((osOpen w a.ConfigLoc).1, w.record (Call.openFile a.ConfigLoc)) := rfl
  rw [hopen]
  generalize (osOpen w a.ConfigLoc).1 = r
  rcases r with e | _ | data
  · by_cases he : e = OsError.notExist
    · simp only [if_pos he]
    · simp only [if_neg he]
  · rfl
  · rcases h : Decode data a.Config with ⟨c, _ | e⟩ <;> simp only [h]

/-- The world after `NewApp`: the calls `UserConfigDir` and, where that
succeeds, `Open` are recorded and nothing else changes. -/
theorem NewApp_world (w : World) :
    (NewApp w).2 = w.record Call.userConfigDir
    ∨ ∃ p, (NewApp w).2 = (w.record Call.userConfigDir).record (Call.openFile p) := by
  unfold NewApp
  split
  · exact Or.inl rfl
  · rename_i d _
    have h := loadConfig_frame (App.init d) (w.record Call.userConfigDir)
    split
    · rename_i heq
      rw [heq] at h
      exact Or.inr ⟨_, h⟩
    · rename_i heq
      rw [heq] at h
      exact Or.inr ⟨_, h⟩

/-- `NewApp` touches nothing of the world but the record of calls. -/
theorem NewApp_frame (w : World) :
    (NewApp w).2.nodes = w.nodes ∧ (NewApp w).2.stdout = w.stdout ∧ (NewApp w).2.log = w.log
    ∧ (NewApp w).2.faulty = w.faulty := by
  rcases NewApp_world w with h | ⟨p, h⟩ <;> rw [h] <;> exact ⟨rfl, rfl, rfl, rfl⟩

/-- C7, as the code has it: if no file exists at the configuration path,
loading succeeds exactly when `os.Open` reports that the file does not exist
(`ENOENT`).  Then `loadConfig` returns nil and `NewApp` returns, with a nil
error, an app at that path whose share list is empty.  Where a path above the
configuration path is a regular file (`ENOTDIR`), or the open fails for
another reason, `loadConfig` returns the error wrapped in "load config" and
`NewApp` returns it wrapped in "new app", with no app.  In every case
`loadConfig` leaves the configuration of the app as it was, whatever it was. -/
theorem load_absent_file (w : World) (dir : Path) (hdir : w.configDir = some dir)
    (hn : w.nodes (dir ++ ["vault", "config.json"]) = none) :
    (∀ c : Config,
      ((App.mk (dir ++ ["vault", "config.json"]) c).loadConfig w).1
        = (if w.faulty (dir ++ ["vault", "config.json"]) then
            some (GoError.wrap "load config" (GoError.os OsError.other))
          else if w.underFile (dir ++ ["vault", "config.json"]) then
            some (GoError.wrap "load config" (GoError.os OsError.notDir))
          else none)
      ∧ ((App.mk (dir ++ ["vault", "config.json"]) c).loadConfig w).2.1.Config = c)
    ∧ (NewApp w).1
        = (if w.faulty (dir ++ ["vault", "config.json"]) then
            Except.error (GoError.wrap "new app"
              (GoError.wrap "load config" (GoError.os OsError.other)))
          else if w.underFile (dir ++ ["vault", "config.json"]) then
            Except.error (GoError.wrap "new app"
              (GoError.wrap "load config" (GoError.os OsError.notDir)))
          else Except.ok (App.init dir))
    ∧ (∀ app, (NewApp w).1 = Except.ok app →
        app.ConfigLoc = dir ++ ["vault", "config.json"] ∧ app.Config.shareList = []) := by
  have hnew : (NewApp w).1
      = (if w.faulty (dir ++ ["vault", "config.json"]) then
          Except.error (GoError.wrap "new app"
            (GoError.wrap "load config" (GoError.os OsError.other)))
        else if w.underFile (dir ++ ["vault", "config.json"]) then
          Except.error (GoError.wrap "new app"
            (GoError.wrap "load config" (GoError.os OsError.notDir)))
        else Except.ok (App.init dir)) := by
    unfold NewApp
    rw [hdir]
    have h := loadConfig_of_none (App.init dir) (w.record Call.userConfigDir) hn
    simp only [h]
    have hfa : (w.record Call.userConfigDir).faulty (App.init dir).ConfigLoc
        = w.faulty (dir ++ ["vault", "config.json"]) := rfl
    have hun : (w.record Call.userConfigDir).underFile (App.init dir).ConfigLoc
        = w.underFile (dir ++ ["vault", "config.json"]) := rfl
    rw [hfa, hun]
    by_cases hf : w.faulty (dir ++ ["vault", "config.json"]) = true
    · simp only [if_pos hf]
    · by_cases hu : w.underFile (dir ++ ["vault", "config.json"]) = true
      · simp only [if_neg hf, if_pos hu]
      · simp only [if_neg hf, if_neg hu]
  refine ⟨fun c => ?_, hnew, fun app happ => ?_⟩
  · rw [loadConfig_of_none (App.mk (dir ++ ["vault", "config.json"]) c) w hn]
    exact ⟨rfl, rfl⟩
  · rw [hnew] at happ
    split_ifs at happ
    cases happ
    exact ⟨rfl, rfl⟩

/-- C7 as amended, in a world where `/home` is empty: `os.Open` reports
`ENOENT` and loading succeeds. -/
theorem load_absent_file_witness :
    freshWorld.nodes homeConfig = none
    ∧ (freshApp.loadConfig freshWorld).1 = none
    ∧ (NewApp freshWorld).1 = Except.ok freshApp
    ∧ freshApp.Config.shareList = [] :=
  have h := load_absent_file freshWorld ["home"] rfl rfl
  ⟨rfl, (h.1 { Shares := none }).1, h.2.1, rfl⟩

/-- C7 as stated fails: where `/home/vault` is a regular file, no file exists
at the configuration path `/home/vault/config.json`, but `os.Open` fails with
`ENOTDIR`, of which `os.IsNotExist` does not hold: `loadConfig` returns an
error and `NewApp` returns an error and no app. -/
theorem load_absent_file_not_a_directory :
    blockedWorld.configDir = some ["home"]
    ∧ blockedWorld.nodes homeConfig = none
    ∧ (osOpen blockedWorld homeConfig).1 = Except.error OsError.notDir
    ∧ (freshApp.loadConfig blockedWorld).1
        = some (GoError.wrap "load config" (GoError.os OsError.notDir))
    ∧ (NewApp blockedWorld).1
        = Except.error (GoError.wrap "new app"
            (GoError.wrap "load config" (GoError.os OsError.notDir))) := by
  decide

/-- The result of `main` when `NewApp` fails. -/
theorem main_of_error (w : World) (osArgs : List GoString) (err : GoError)
    (h : (NewApp w).1 = Except.error err) :
    main w osArgs = (Outcome.panic err, none, (NewApp w).2) := by
  unfold main
  rcases hr : NewApp w with ⟨e, w1⟩
  rw [hr] at h
  change e = _ at h
  subst h
  rfl

/-- The result of `main` when `NewApp` succeeds. -/
theorem main_of_ok (w : World) (osArgs : List GoString) (app : App)
    (h : (NewApp w).1 = Except.ok app) :
    main w osArgs =
      if osArgs.length < 2 then
        (Outcome.exit 1, some app,
          (NewApp w).2.logged (LogEntry.fatal "add the service runner here"))
      else
        (Outcome.exit (app.Run (NewApp w).2 (osArgs.getD 1 []) (osArgs.drop 2)).1,
          some (app.Run (NewApp w).2 (osArgs.getD 1 []) (osArgs.drop 2)).2.1,
          (app.Run (NewApp w).2 (osArgs.getD 1 []) (osArgs.drop 2)).2.2) := by
  unfold main
  rcases hr : NewApp w with ⟨e, w1⟩
  rw [hr] at h
  change e = _ at h
  subst h
  rfl

/-- C9, as the code has it: run with no command word, once the configuration
has loaded, `main` writes the fatal log entry "add the service runner here"
to standard error and exits with code 1.  It prints nothing, the usage text
included, runs no command handler, and leaves the configuration as loaded and
the file system as it was. -/
theorem main_no_command (w : World) (osArgs : List GoString) (app : App)
    (hargs : osArgs.length < 2) (hload : (NewApp w).1 = Except.ok app) :
    (main w osArgs).1 = Outcome.exit 1
    ∧ (main w osArgs).2.1 = some app
    ∧ (main w osArgs).2.2.log = w.log ++ [LogEntry.fatal "add the service runner here"]
    ∧ (main w osArgs).2.2.stdout = w.stdout
    ∧ (main w osArgs).2.2.nodes = w.nodes
    ∧ (main w osArgs).2.2.calls = (NewApp w).2.calls := by
  have hf := NewApp_frame w
  rw [main_of_ok w osArgs app hload, if_pos hargs]
  refine ⟨rfl, rfl, ?_, hf.2.1, hf.1, rfl⟩
  rw [← hf.2.2.1]
  rfl

/-- C9, at the argument list holding only the program name. -/
theorem main_no_command_witness :
    (main freshWorld [lit "vault"]).1 = Outcome.exit 1
    ∧ (main freshWorld [lit "vault"]).2.2.log = [LogEntry.fatal "add the service runner here"]
    ∧ (main freshWorld [lit "vault"]).2.2.stdout = [] :=
  have h := main_no_command freshWorld [lit "vault"] freshApp (by decide) (by decide)
  ⟨h.1, h.2.2.1, h.2.2.2.1⟩

set_option maxRecDepth 100000 in
/-- C9 as stated fails: run with no command word, the program exits with code
1 but prints no usage text; standard output stays empty, while the usage text
`printUsage` would print is not empty and mentions service mode. -/
theorem main_no_command_prints_nothing :
    (main freshWorld [lit "vault"]).1 = Outcome.exit 1
    ∧ (main freshWorld [lit "vault"]).2.2.stdout = []
    ∧ (printUsage freshWorld).stdout ≠ (main freshWorld [lit "vault"]).2.2.stdout
    ∧ lit "service mode" <:+: (printUsage freshWorld).stdout := by
  refine ⟨by decide, by decide, by decide, ?_⟩
  decide

/-! ### text/tabwriter on the lines of a listing -/

/-- Plain bytes written outside an escape join the current cell. -/
theorem Write_plain (text : List Byte) (hp : text.all isPlain = true) (out : List Byte)
    (lines : List (List Cell)) (line : List Cell) (text0 : List Byte) (width : Nat)
    (htab : Bool) (counted : Nat) :
    Writer.Write ⟨out, lines, line, ⟨text0, width, htab⟩, counted, 0⟩ text
      = ⟨out, lines, line, ⟨text0 ++ text, width, htab⟩, counted, 0⟩ := by
  induction text generalizing text0 with
  | nil => simp [Writer.Write]
  | cons c cs ih =>
    have hc : isPlain c = true := by simp [List.all_cons] at hp; exact hp.1
    have hcs : cs.all isPlain = true := by simp [List.all_cons] at hp ⊢; exact hp.2
    have hstep : Writer.writeByte ⟨out, lines, line, ⟨text0, width, htab⟩, counted, 0⟩ c
        = ⟨out, lines, line, ⟨text0 ++ [c], width, htab⟩, counted, 0⟩ := by
      simp only [isPlain, decide_eq_true_eq] at hc
      unfold Writer.writeByte
      rw [if_pos rfl, if_neg (by omega), if_neg (by unfold Escape; omega)]
    have hfold : ∀ b : Writer, b.Write (c :: cs) = (b.writeByte c).Write cs := fun _ => rfl
    rw [hfold, hstep, ih hcs]
    simp

/-- A tab ends the current cell, which joins the current line. -/
theorem writeByte_tab (out : List Byte) (lines : List (List Cell)) (line : List Cell)
    (text : List Byte) (width : Nat) (htab : Bool) (counted : Nat) :
    Writer.Write ⟨out, lines, line, ⟨text, width, htab⟩, counted, 0⟩ [0x09]
      = ⟨out, lines, line ++ [⟨text, width + RuneCount (text.drop counted), true⟩],
          ⟨[], 0, false⟩, 0, 0⟩ := rfl

/-- A newline after a first cell ends the second cell and the line; a line of
two cells is buffered, not flushed. -/
theorem writeByte_newline (out : List Byte) (lines : List (List Cell)) (c : Cell)
    (text : List Byte) (width : Nat) (htab : Bool) (counted : Nat) :
    Writer.Write ⟨out, lines, [c], ⟨text, width, htab⟩, counted, 0⟩ [0x0A]
      = ⟨out, lines ++ [[c, ⟨text, width + RuneCount (text.drop counted), false⟩]], [],
          ⟨[], 0, false⟩, 0, 0⟩ := rfl

/-- `Write` of two pieces is `Write` of the first, then of the second. -/
theorem Write_append (b : Writer) (s t : List Byte) : b.Write (s ++ t) = (b.Write s).Write t := by
  simp [Writer.Write, List.foldl_append]

/-- The line of a share with a plain name and directory, written at the start
of a line, is buffered as a line of two cells; nothing is flushed. -/
theorem Write_row (s : Share) (hs : s.plain = true) (lines : List (List Cell)) :
    Writer.Write ⟨[], lines, [], ⟨[], 0, false⟩, 0, 0⟩
        (s.Name ++ [0x3A, 0x09] ++ s.Dir ++ [0x0A])
      = ⟨[], lines ++ [rowCells s], [], ⟨[], 0, false⟩, 0, 0⟩ := by
  have hname : (s.Name ++ [0x3A]).all isPlain = true := by
    simp only [Share.plain, Bool.and_eq_true] at hs
    rw [List.all_append, hs.1]
    decide
  have hdir : s.Dir.all isPlain = true := by
    simp only [Share.plain, Bool.and_eq_true] at hs
    exact hs.2
  have hsplit : s.Name ++ [0x3A, 0x09] ++ s.Dir ++ [0x0A]
      = (s.Name ++ [0x3A]) ++ ([0x09] ++ (s.Dir ++ [0x0A])) := by simp
  rw [hsplit, Write_append, Write_plain _ hname, Write_append]
  rw [writeByte_tab, Write_append, Write_plain _ hdir, List.nil_append, writeByte_newline]
  simp [rowCells]

/-- All the lines of a listing of plain shares are buffered, none flushed. -/
theorem Write_rows (shares : List Share) (hs : ∀ s ∈ shares, s.plain = true)
    (lines : List (List Cell)) :
    shares.foldl
        (fun (tw : Writer) share => tw.Write (share.Name ++ [0x3A, 0x09] ++ share.Dir ++ [0x0A]))
        ⟨[], lines, [], ⟨[], 0, false⟩, 0, 0⟩
      = ⟨[], lines ++ shares.map rowCells, [], ⟨[], 0, false⟩, 0, 0⟩ := by
  induction shares generalizing lines with
  | nil => simp
  | cons s rest ih =>
    rw [List.foldl_cons, Write_row s (hs s (List.mem_cons_self _ _)),
      ih (fun t ht => hs t (List.mem_cons_of_mem _ ht))]
    simp

/-- The buffered lines of a listing with the empty current line, marked. -/
theorem markLast_rows (rows : List (List Cell)) :
    markLast (rows ++ [[]]) = rows.map (fun r => (r, false)) ++ [([], true)] := by
  induction rows with
  | nil => rfl
  | cons r rest ih =>
    cases rest with
    | nil => rfl
    | cons r2 rest2 =>
      have h : markLast (r :: r2 :: (rest2 ++ [[]]))
          = (r, false) :: markLast (r2 :: (rest2 ++ [[]])) := rfl
      simp only [List.cons_append] at ih ⊢
      rw [h, ih]
      simp

/-- A line of a share under the width of the name column. -/
theorem writeLine_row (width : Nat) (s : Share) :
    writeLine [width] (rowCells s) false = listRow width s := by
  simp [writeLine, rowCells, listRow, List.enum, List.enumFrom]

/-- Lines of two cells under one known column width are written one by one. -/
theorem format_rows (width : Nat) (shares : List Share) (fuel : Nat)
    (hfuel : shares.length ≤ fuel) :
    format fuel [width] (shares.map (fun s => (rowCells s, false)))
      = (shares.map (listRow width)).flatten := by
  induction shares generalizing fuel with
  | nil => cases fuel <;> simp [format]
  | cons s rest ih =>
    cases fuel with
    | zero => simp at hfuel
    | succ fuel =>
      have hfuel1 : rest.length ≤ fuel := by simpa using hfuel
      simp only [List.map_cons, List.flatten_cons]
      rw [format, if_neg (by simp [inColumn, rowCells]), writeLine_row, ih fuel hfuel1]

/-- The width `format` computes for the name column. -/
theorem foldl_width (shares : List Share) (w0 : Nat) :
    (shares.map (fun s => (rowCells s, false))).foldl
        (fun w (x : List Cell × Bool) =>
          max w ((x.1.getD 0 { text := [], width := 0, htab := false }).width + 1)) w0
      = shares.foldl (fun w s => max w (RuneCount (s.Name ++ [0x3A]) + 1)) w0 := by
  induction shares generalizing w0 with
  | nil => rfl
  | cons s rest ih =>
    simp only [List.map_cons, List.foldl_cons]
    rw [ih]
    rfl

/-- `takeWhile` over the lines of a listing followed by the empty line. -/
theorem takeWhile_rows (shares : List Share) :
    (shares.map (fun s => (rowCells s, false)) ++ [([], true)]).takeWhile (inColumn 0)
      = shares.map (fun s => (rowCells s, false)) := by
  induction shares with
  | nil => simp [inColumn]
  | cons s rest ih =>
    simp only [List.map_cons, List.cons_append]
    rw [List.takeWhile_cons_of_pos (by simp [inColumn, rowCells]), ih]

/-- `dropWhile` over the lines of a listing followed by the empty line. -/
theorem dropWhile_rows (shares : List Share) :
    (shares.map (fun s => (rowCells s, false)) ++ [([], true)]).dropWhile (inColumn 0)
      = [([], true)] := by
  induction shares with
  | nil => simp [inColumn]
  | cons s rest ih =>
    simp only [List.map_cons, List.cons_append]
    rw [List.dropWhile_cons_of_pos (by simp [inColumn, rowCells]), ih]

/-- The buffered lines of a listing, formatted. -/
theorem format_listing (shares : List Share) (fuel : Nat) (hfuel : shares.length + 1 ≤ fuel) :
    format fuel [] (shares.map (fun s => (rowCells s, false)) ++ [([], true)])
      = (shares.map (listRow (listWidth shares))).flatten := by
  cases fuel with
  | zero => simp at hfuel
  | succ fuel =>
    cases shares with
    | nil =>
      simp only [List.map_nil, List.nil_append, List.flatten_nil]
      rw [format, if_neg (by simp [inColumn])]
      cases fuel <;> simp [format, writeLine, List.enum, List.enumFrom]
    | cons s rest =>
      have hfuel1 : (s :: rest).length ≤ fuel := by simpa using hfuel
      have hlist : ((s :: rest).map (fun s => (rowCells s, false)) ++ [([], true)])
          = (rowCells s, false) :: (rest.map (fun s => (rowCells s, false)) ++ [([], true)]) := rfl
      rw [hlist, format, if_pos (by simp [inColumn, rowCells]), ← hlist]
      simp only [List.length_nil, List.nil_append]
      rw [takeWhile_rows, dropWhile_rows, foldl_width, format_rows _ _ _ hfuel1]
      have hlast : format fuel [] [([], true)] = [] := by
        cases fuel with
        | zero => rfl
        | succ f =>
          rw [format, if_neg (by simp [inColumn])]
          cases f <;> simp [format, writeLine, List.enum, List.enumFrom]
      rw [hlast, List.append_nil]
      rfl

/-- What `handleListConfig` hands to standard output after the header, for
plain shares. -/
theorem listing_out (shares : List Share) (hs : ∀ s ∈ shares, s.plain = true) :
    ((shares.foldl
        (fun (tw : Writer) share => tw.Write (share.Name ++ [0x3A, 0x09] ++ share.Dir ++ [0x0A]))
        NewWriter).Flush).out
      = (shares.map (listRow (listWidth shares))).flatten := by
  have h := Write_rows shares hs []
  have h0 : (⟨[], [], [], ⟨[], 0, false⟩, 0, 0⟩ : Writer) = NewWriter := rfl
  rw [h0] at h
  rw [h]
  simp only [Writer.Flush, Writer.flush, NewWriter, List.length_nil, gt_iff_lt, lt_self_iff_false,
    if_false, List.nil_append]
  rw [markLast_rows, List.map_map]
  exact format_listing shares _ (by simp; omega)

/-- The name column is wide enough for every name of the listing, its colon
and one space. -/
theorem le_listWidth (shares : List Share) (s : Share) (hs : s ∈ shares) :
    RuneCount (s.Name ++ [0x3A]) + 1 ≤ listWidth shares := by
  have hmono : ∀ (l : List Share) (w0 : Nat),
      w0 ≤ l.foldl (fun w s => max w (RuneCount (s.Name ++ [0x3A]) + 1)) w0 := by
    intro l
    induction l with
    | nil => intro w0; exact Nat.le_refl _
    | cons t rest ih =>
      intro w0
      exact Nat.le_trans (Nat.le_max_left _ _) (ih _)
  have hmem : ∀ (l : List Share) (w0 : Nat), s ∈ l →
      RuneCount (s.Name ++ [0x3A]) + 1
        ≤ l.foldl (fun w s => max w (RuneCount (s.Name ++ [0x3A]) + 1)) w0 := by
    intro l
    induction l with
    | nil => intro w0 h; cases h
    | cons t rest ih =>
      intro w0 h
      rcases List.mem_cons.mp h with rfl | h
      · exact Nat.le_trans (Nat.le_max_right _ _) (hmono rest _)
      · exact ih _ h
  exact hmem shares 0 hs

/-- C10, as the code has it: for a config whose names and directories hold
none of the bytes tab, vertical tab, newline, form feed and 0xFF,
`handleListConfig`, with any arguments, returns 0, leaves the config and the
file system unchanged, and writes to standard output the header line
`=== Shares` followed by one row per share in insertion order, each the name,
a colon, spaces and the directory; counted in runes, the name, colon and spaces
of every row are as wide as the widest name with its colon and one space, so
the directories start in one column.  With no shares the output is the
header line alone. -/
theorem handleListConfig_rows (a : App) (w : World) (args : List GoString)
    (hplain : ∀ s ∈ a.Config.shareList, s.plain = true) :
    (a.handleListConfig w args).1 = OK
    ∧ (a.handleListConfig w args).2.1 = a
    ∧ (a.handleListConfig w args).2.2.nodes = w.nodes
    ∧ (a.handleListConfig w args).2.2.stdout
        = w.stdout ++ lit "=== Shares" ++ [0x0A]
          ++ (a.Config.shareList.map (listRow (listWidth a.Config.shareList))).flatten
    ∧ (∀ s ∈ a.Config.shareList,
        RuneCount (s.Name ++ [0x3A])
            + (listWidth a.Config.shareList - RuneCount (s.Name ++ [0x3A]))
          = listWidth a.Config.shareList)
    ∧ (a.Config.shareList = [] →
        (a.handleListConfig w args).2.2.stdout = w.stdout ++ lit "=== Shares" ++ [0x0A]) := by
  have hout : (a.handleListConfig w args).2.2.stdout
      = w.stdout ++ lit "=== Shares" ++ [0x0A]
        ++ (a.Config.shareList.map (listRow (listWidth a.Config.shareList))).flatten := by
    unfold App.handleListConfig
    simp only [World.println]
    rw [listing_out _ hplain]
  refine ⟨rfl, rfl, rfl, hout, fun s hs => ?_, fun hnil => ?_⟩
  · have h := le_listWidth _ s hs
    omega
  · rw [hout, hnil]
    simp

/-- C10, at a config holding `docs` at `/tmp/docs` and `p` at `/tmp/p`. -/
theorem handleListConfig_rows_witness :
    (listedApp.handleListConfig freshWorld []).1 = 0
    ∧ (listedApp.handleListConfig freshWorld []).2.2.stdout
        = lit "=== Shares\ndocs: /tmp/docs\np:    /tmp/p\n" :=
  have h := handleListConfig_rows listedApp freshWorld [] (by decide)
  ⟨h.1, by rw [h.2.2.2.1]; decide⟩

set_option maxRecDepth 100000 in
/-- C10 as stated fails: for a share whose name holds a tab, the tab ends a
cell and is replaced by padding, so no row of the output is that name
followed by a colon and the directory. -/
theorem handleListConfig_tab_in_name :
    tabbedApp.Config.shareList
        = [{ Name := lit "a\tb", Dir := lit "x" }, { Name := lit "ccc", Dir := lit "y" }]
    ∧ (tabbedApp.handleListConfig freshWorld []).1 = 0
    ∧ (tabbedApp.handleListConfig freshWorld []).2.2.stdout
        = lit "=== Shares\na    b: x\nccc: y\n"
    ∧ ¬ (lit "a\tb" ++ [0x3A] <:+: (tabbedApp.handleListConfig freshWorld []).2.2.stdout) := by
  decide

/-! ### Values the decoder rejects -/

/-- A value that is neither a string nor `null` is a type error for a string
field. -/
theorem storeString_mismatch (v : JSON) (cur : GoString) (h : notStringOrNull v = true) :
    (storeString v cur).2 = true := by
  cases v <;> first | rfl | (simp [notStringOrNull] at h)

/-- Once a type error is recorded it stays recorded over the members of a
share. -/
theorem storeShareField_sticky (ms : List (List Byte × JSON)) (acc : Share × Bool)
    (h : acc.2 = true) : (ms.foldl storeShareField acc).2 = true := by
  induction ms generalizing acc with
  | nil => exact h
  | cons m rest ih =>
    rw [List.foldl_cons]
    apply ih
    unfold storeShareField
    split_ifs <;> simp [h]

/-- A member of a share that does not fit its field is a type error. -/
theorem storeShareField_mismatch (ms : List (List Byte × JSON)) (acc : Share × Bool)
    (h : ms.any (fun m => (keyIs "Name" m.1 || keyIs "Dir" m.1) && notStringOrNull m.2) = true) :
    (ms.foldl storeShareField acc).2 = true := by
  induction ms generalizing acc with
  | nil => simp at h
  | cons m rest ih =>
    rw [List.foldl_cons]
    rw [List.any_cons, Bool.or_eq_true] at h
    rcases h with h | h
    · apply storeShareField_sticky
      rw [Bool.and_eq_true, Bool.or_eq_true] at h
      unfold storeShareField
      by_cases hn : keyIs "Name" m.1 = true
      · rw [if_pos hn]
        simp [storeString_mismatch m.2 _ h.2]
      · rw [if_neg hn]
        have hd : keyIs "Dir" m.1 = true := h.1.resolve_left hn
        rw [if_pos hd]
        simp [storeString_mismatch m.2 _ h.2]
    · exact ih _ h

/-- A value that does not fit a `Share` is a type error. -/
theorem storeShare_mismatch (v : JSON) (cur : Share) (h : shareMismatch v = true) :
    (storeShare v cur).2 = true := by
  cases v with
  | object ms => exact storeShareField_mismatch ms _ h
  | null => simp [shareMismatch] at h
  | bool b => rfl
  | number t => rfl
  | string t => rfl
  | array es => rfl

/-- An element that does not fit a `Share` is a type error for the slice. -/
theorem storeElems_mismatch (es : List JSON) (cur : List Share)
    (h : es.any shareMismatch = true) : (storeElems es cur).2 = true := by
  induction es generalizing cur with
  | nil => simp at h
  | cons e rest ih =>
    rw [List.any_cons, Bool.or_eq_true] at h
    unfold storeElems
    rcases h with h | h
    · simp [storeShare_mismatch e _ h]
    · simp [ih _ h]

/-- A value that does not fit `[]Share` is a type error. -/
theorem storeShares_mismatch (v : JSON) (cur : Option (List Share))
    (h : sharesMismatch v = true) : (storeShares v cur).2 = true := by
  cases v with
  | array es => exact storeElems_mismatch es _ h
  | null => simp [sharesMismatch] at h
  | bool b => rfl
  | number t => rfl
  | string t => rfl
  | object ms => rfl

/-- Once a type error is recorded it stays recorded over the members of the
configuration. -/
theorem storeConfigField_sticky (ms : List (List Byte × JSON)) (acc : Config × Bool)
    (h : acc.2 = true) : (ms.foldl storeConfigField acc).2 = true := by
  induction ms generalizing acc with
  | nil => exact h
  | cons m rest ih =>
    rw [List.foldl_cons]
    apply ih
    unfold storeConfigField
    split_ifs <;> simp [h]

/-- A value that does not fit the expected structure is a type error. -/
theorem storeConfig_mismatch (v : JSON) (cur : Config) (h : configMismatch v = true) :
    (storeConfig v cur).2 = true := by
  cases v with
  | object ms =>
    have hgen : ∀ acc : Config × Bool, (ms.foldl storeConfigField acc).2 = true := by
      induction ms with
      | nil => simp [configMismatch] at h
      | cons m rest ih =>
        intro acc
        rw [List.foldl_cons]
        simp only [configMismatch, List.any_cons, Bool.or_eq_true, Bool.and_eq_true] at h
        rcases h with h | h
        · apply storeConfigField_sticky
          unfold storeConfigField
          rw [if_pos h.1]
          simp [storeShares_mismatch m.2 _ h.2]
        · exact ih (by simpa [configMismatch] using h) _
    exact hgen _
  | null => simp [configMismatch] at h
  | bool b => rfl
  | number t => rfl
  | string t => rfl
  | array es => rfl

/-- `Decode` reports an error when the input does not start with a complete
JSON value, and when its first value does not fit the expected structure. -/
theorem Decode_error (data : List Byte) (cur : Config)
    (hbad : parseValue maxNestingDepth data = none
      ∨ ∃ v rest, parseValue maxNestingDepth data = some (v, rest) ∧ configMismatch v = true) :
    ∃ err, (Decode data cur).2 = some err := by
  unfold Decode
  split
  · exact ⟨_, rfl⟩
  · rcases hbad with h | ⟨v, rest, h, hm⟩
    · rw [h]
      exact ⟨_, rfl⟩
    · rw [h]
      simp only [storeConfig_mismatch v cur hm, if_true]
      exact ⟨_, rfl⟩

/-- C8, as the code has it: for every existing, readable configuration file
whose contents do not start with a complete JSON value (the file is empty, or
its first value is malformed or cut short), or whose first value does not fit
the expected structure (it is not an object or `null`, or holds a `Shares`
that is not an array or `null`, an element that is not an object or `null`,
or a `Name` or `Dir` that is not a string or `null`), `loadConfig` returns a
non-nil error, `NewApp` returns that error, wrapped, with no app, and `main`
panics with it before `Run` is called: no app exists, nothing is printed or
logged, the file system is untouched and the only calls made are
`UserConfigDir` and `Open`.  What follows the first value in the file is not
looked at. -/
theorem load_rejected_file (w : World) (dir : Path) (data : List Byte)
    (hdir : w.configDir = some dir)
    (hf : w.faulty (dir ++ ["vault", "config.json"]) = false)
    (hn : w.nodes (dir ++ ["vault", "config.json"]) = some (Node.file data))
    (hbad : parseValue maxNestingDepth data = none
      ∨ ∃ v rest, parseValue maxNestingDepth data = some (v, rest) ∧ configMismatch v = true) :
    (∀ c : Config, ((App.mk (dir ++ ["vault", "config.json"]) c).loadConfig w).1 ≠ none)
    ∧ ∃ err,
        ((App.init dir).loadConfig (w.record Call.userConfigDir)).1 = some err
        ∧ (NewApp w).1 = Except.error (GoError.wrap "new app" err)
        ∧ ∀ osArgs : List GoString,
            (main w osArgs).1 = Outcome.panic (GoError.wrap "new app" err)
            ∧ (main w osArgs).2.1 = none
            ∧ (main w osArgs).2.2.stdout = w.stdout
            ∧ (main w osArgs).2.2.log = w.log
            ∧ (main w osArgs).2.2.nodes = w.nodes
            ∧ (main w osArgs).2.2.calls
                = w.calls ++ [Call.userConfigDir,
                    Call.openFile (dir ++ ["vault", "config.json"])] := by
  constructor
  · intro c
    rw [loadConfig_of_file (App.mk (dir ++ ["vault", "config.json"]) c) w data hf hn]
    obtain ⟨err, herr⟩ := Decode_error data c hbad
    simp [herr]
  · obtain ⟨err, herr⟩ := Decode_error data (App.init dir).Config hbad
    have hload := loadConfig_of_file (App.init dir) (w.record Call.userConfigDir) data hf hn
    rw [herr] at hload
    refine ⟨GoError.wrap "load config" (GoError.json err), ?_, ?_, ?_⟩
    · rw [hload]
      rfl
    · unfold NewApp
      rw [hdir]
      simp only [hload, Option.map_some']
    · have hnew : NewApp w = (Except.error (GoError.wrap "new app"
          (GoError.wrap "load config" (GoError.json err))),
          (w.record Call.userConfigDir).record (Call.openFile (App.init dir).ConfigLoc)) := by
        unfold NewApp
        rw [hdir]
        simp only [hload, Option.map_some']
      intro osArgs
      rw [main_of_error w osArgs _ (by rw [hnew]), hnew]
      refine ⟨rfl, rfl, rfl, rfl, rfl, ?_⟩
      simp [World.record, App.init]

/-- C8, at a configuration file that is cut short and at one holding an array. -/
theorem load_rejected_file_witness :
    (NewApp (worldWithFile ([0x7B] ++ lit "\"Shares\":["))).1
        = Except.error (GoError.wrap "new app"
            (GoError.wrap "load config" (GoError.json DecodeError.malformed)))
    ∧ (main (worldWithFile ([0x7B] ++ lit "\"Shares\":[")) [lit "vault", lit "help"]).2.2.stdout
        = []
    ∧ ∃ err, (NewApp (worldWithFile (lit "[]"))).1 = Except.error (GoError.wrap "new app" err) :=
  have h1 := load_rejected_file (worldWithFile ([0x7B] ++ lit "\"Shares\":[")) ["home"]
    ([0x7B] ++ lit "\"Shares\":[") rfl rfl rfl (Or.inl (by rfl))
  have h2 := load_rejected_file (worldWithFile (lit "[]")) ["home"] (lit "[]") rfl rfl rfl
    (Or.inr ⟨JSON.array [], [], by rfl, rfl⟩)
  ⟨by decide, (h1.2.choose_spec.2.2 [lit "vault", lit "help"]).2.2.1,
    h2.2.choose, h2.2.choose_spec.2.1⟩

/-- C8 as stated fails: a file that holds a saved configuration followed by
the bytes `oops` is not valid JSON, yet `loadConfig` returns no error, `NewApp`
returns an app holding the share of the file, and `main` goes on to run the
command. -/
theorem load_accepts_trailing_bytes :
    Valid trailingData = false
    ∧ ((App.init ["home"]).loadConfig (worldWithFile trailingData)).1 = none
    ∧ (NewApp (worldWithFile trailingData)).1
        = Except.ok { ConfigLoc := homeConfig, Config := { Shares := some [docsShare] } }
    ∧ (main (worldWithFile trailingData) [lit "vault", lit "config", lit "list"]).1
        = Outcome.exit 0
    ∧ (main (worldWithFile trailingData) [lit "vault", lit "config", lit "list"]).2.2.stdout
        = lit "=== Shares\ndocs: /tmp/docs\n" := by
  decide

/-! ### unicode/utf8: decoding and encoding agree on valid sequences -/

/-- A byte below `RuneSelf` is a rune of its own. -/
theorem DecodeRune_ascii (b : Byte) (t : List Byte) (h : b.val < 0x80) :
    DecodeRune (b :: t) = (b.val, 1) := by
  simp only [DecodeRune, RuneSelf, if_pos h]

set_option maxRecDepth 100000 in
/-- The table `first`, read by the ranges of the leading byte. -/
theorem first_cases : ∀ b0 : Byte, 0x80 ≤ b0.val →
    first b0.val = none
    ∨ (0xC2 ≤ b0.val ∧ b0.val ≤ 0xDF ∧ first b0.val = some (2, 0x80, 0xBF))
    ∨ (0xE0 ≤ b0.val ∧ b0.val ≤ 0xEF
        ∧ first b0.val = some (3, if b0.val = 0xE0 then 0xA0 else 0x80,
            if b0.val = 0xED then 0x9F else 0xBF))
    ∨ (0xF0 ≤ b0.val ∧ b0.val ≤ 0xF4
        ∧ first b0.val = some (4, if b0.val = 0xF0 then 0x90 else 0x80,
            if b0.val = 0xF4 then 0x8F else 0xBF)) := by
  decide

set_option maxRecDepth 100000 in
/-- The table `first` on the leading bytes of valid sequences. -/
theorem first_values : ∀ b0 : Byte,
    (0xC2 ≤ b0.val ∧ b0.val ≤ 0xDF → first b0.val = some (2, 0x80, 0xBF))
    ∧ (0xE0 ≤ b0.val ∧ b0.val ≤ 0xEF →
        first b0.val = some (3, if b0.val = 0xE0 then 0xA0 else 0x80,
            if b0.val = 0xED then 0x9F else 0xBF))
    ∧ (0xF0 ≤ b0.val ∧ b0.val ≤ 0xF4 →
        first b0.val = some (4, if b0.val = 0xF0 then 0x90 else 0x80,
            if b0.val = 0xF4 then 0x8F else 0xBF)) := by
  decide

/-- A valid sequence of two bytes. -/
theorem DecodeRune_two (b0 b1 : Byte) (t : List Byte)
    (h0 : 0xC2 ≤ b0.val ∧ b0.val ≤ 0xDF) (h1 : 0x80 ≤ b1.val ∧ b1.val ≤ 0xBF) :
    DecodeRune (b0 :: b1 :: t) = (b0.val % 32 * 64 + b1.val % 64, 2) := by
  simp only [DecodeRune, RuneSelf, (first_values b0).1 h0, List.length_cons]
  rw [if_neg (by omega), if_neg (by omega), if_neg (by omega), if_pos (by omega)]

/-- A valid sequence of three bytes. -/
theorem DecodeRune_three (b0 b1 b2 : Byte) (t : List Byte) (h : secondOfThree b0.val b1.val)
    (h2 : 0x80 ≤ b2.val ∧ b2.val ≤ 0xBF) :
    DecodeRune (b0 :: b1 :: b2 :: t)
      = (b0.val % 16 * 4096 + b1.val % 64 * 64 + b2.val % 64, 3) := by
  obtain ⟨h0, hlo, hhi⟩ := h
  simp only [DecodeRune, RuneSelf, (first_values b0).2.1 h0, List.length_cons]
  rw [if_neg (by omega), if_neg (by omega), if_neg (by omega), if_neg (by omega),
    if_neg (by omega), if_pos (by omega)]

/-- A valid sequence of four bytes. -/
theorem DecodeRune_four (b0 b1 b2 b3 : Byte) (t : List Byte) (h : secondOfFour b0.val b1.val)
    (h2 : 0x80 ≤ b2.val ∧ b2.val ≤ 0xBF) (h3 : 0x80 ≤ b3.val ∧ b3.val ≤ 0xBF) :
    DecodeRune (b0 :: b1 :: b2 :: b3 :: t)
      = (b0.val % 8 * 262144 + b1.val % 64 * 4096 + b2.val % 64 * 64 + b3.val % 64, 4) := by
  obtain ⟨h0, hlo, hhi⟩ := h
  simp only [DecodeRune, RuneSelf, (first_values b0).2.2 h0, List.length_cons]
  rw [if_neg (by omega), if_neg (by omega), if_neg (by omega), if_neg (by omega),
    if_neg (by omega), if_neg (by omega), if_neg (by omega)]

/-- A sequence that starts with a byte from `RuneSelf` on and that `DecodeRune`
does not reject has one of the valid shapes. -/
theorem validShape_of_DecodeRune (b0 : Byte) (t : List Byte) (h80 : 0x80 ≤ b0.val)
    (hv : ¬ ((DecodeRune (b0 :: t)).1 = RuneError ∧ (DecodeRune (b0 :: t)).2 = 1)) :
    validShape (b0 :: t) := by
  have hbad : ∀ x : Nat × Nat, x = (RuneError, 1) → (x.1 = RuneError ∧ x.2 = 1) :=
    fun x hx => by rw [hx]; exact ⟨rfl, rfl⟩
  rcases first_cases b0 h80 with hf | ⟨h1, h2, hf⟩ | ⟨h1, h2, hf⟩ | ⟨h1, h2, hf⟩
  · exfalso
    apply hv
    apply hbad
    simp only [DecodeRune, RuneSelf, hf]
    rw [if_neg (by omega)]
  · cases t with
    | nil =>
      exfalso
      apply hv
      apply hbad
      simp only [DecodeRune, RuneSelf, hf, List.length_cons, List.length_nil]
      rw [if_neg (by omega), if_pos (by omega)]
    | cons b1 t1 =>
      by_cases hb1 : b1.val < 0x80 ∨ 0xBF < b1.val
      · exfalso
        apply hv
        apply hbad
        simp only [DecodeRune, RuneSelf, hf, List.length_cons]
        rw [if_neg (by omega), if_neg (by omega), if_pos hb1]
      · exact Or.inl ⟨b0, b1, t1, rfl, ⟨h1, h2⟩, by omega⟩
  · cases t with
    | nil =>
      exfalso
      apply hv
      apply hbad
      simp only [DecodeRune, RuneSelf, hf, List.length_cons, List.length_nil]
      rw [if_neg (by omega), if_pos (by omega)]
    | cons b1 t1 =>
      by_cases hb1 : b1.val < (if b0.val = 0xE0 then 0xA0 else 0x80)
          ∨ (if b0.val = 0xED then 0x9F else 0xBF) < b1.val
      · exfalso
        apply hv
        apply hbad
        simp only [DecodeRune, RuneSelf, hf, List.length_cons]
        rw [if_neg (by omega)]
        split_ifs <;> rfl
      · cases t1 with
        | nil =>
          exfalso
          apply hv
          apply hbad
          simp only [DecodeRune, RuneSelf, hf, List.length_cons, List.length_nil]
          rw [if_neg (by omega), if_pos (by omega)]
        | cons b2 t2 =>
          by_cases hb2 : b2.val < 0x80 ∨ 0xBF < b2.val
          · exfalso
            apply hv
            apply hbad
            simp only [DecodeRune, RuneSelf, hf, List.length_cons]
            rw [if_neg (by omega), if_neg (by omega), if_neg hb1, if_neg (by omega), if_pos hb2]
          · exact Or.inr (Or.inl ⟨b0, b1, b2, t2, rfl, ⟨⟨h1, h2⟩, by omega, by omega⟩,
              by omega⟩)
  · cases t with
    | nil =>
      exfalso
      apply hv
      apply hbad
      simp only [DecodeRune, RuneSelf, hf, List.length_cons, List.length_nil]
      rw [if_neg (by omega), if_pos (by omega)]
    | cons b1 t1 =>
      by_cases hb1 : b1.val < (if b0.val = 0xF0 then 0x90 else 0x80)
          ∨ (if b0.val = 0xF4 then 0x8F else 0xBF) < b1.val
      · exfalso
        apply hv
        apply hbad
        simp only [DecodeRune, RuneSelf, hf, List.length_cons]
        rw [if_neg (by omega)]
        split_ifs <;> rfl
      · cases t1 with
        | nil =>
          exfalso
          apply hv
          apply hbad
          simp only [DecodeRune, RuneSelf, hf, List.length_cons, List.length_nil]
          rw [if_neg (by omega), if_pos (by omega)]
        | cons b2 t2 =>
          by_cases hb2 : b2.val < 0x80 ∨ 0xBF < b2.val
          · exfalso
            apply hv
            apply hbad
            simp only [DecodeRune, RuneSelf, hf, List.length_cons]
            rw [if_neg (by omega)]
            by_cases hl : t2.length + 1 + 1 + 1 < 4
            · rw [if_pos hl]
            · rw [if_neg hl, if_neg hb1, if_neg (show ¬ (4 ≤ 2) by omega), if_pos hb2]
          · cases t2 with
            | nil =>
              exfalso
              apply hv
              apply hbad
              simp only [DecodeRune, RuneSelf, hf, List.length_cons, List.length_nil]
              rw [if_neg (by omega), if_pos (by omega)]
            | cons b3 t3 =>
              by_cases hb3 : b3.val < 0x80 ∨ 0xBF < b3.val
              · exfalso
                apply hv
                apply hbad
                simp only [DecodeRune, RuneSelf, hf, List.length_cons]
                rw [if_neg (by omega), if_neg (by omega), if_neg hb1,
                  if_neg (show ¬ (4 ≤ 2) by omega), if_neg hb2,
                  if_neg (show ¬ (4 ≤ 3) by omega), if_pos hb3]
              · exact Or.inr (Or.inr ⟨b0, b1, b2, b3, t3, rfl,
                  ⟨⟨h1, h2⟩, by omega, by omega⟩, by omega, by omega⟩)

/-- `byte n` is the byte whose value `n` is. -/
theorem byte_eq (n : Nat) (b : Byte) (h : n = b.val) : byte n = b := by
  apply Fin.ext
  have := b.isLt
  simp only [byte]
  omega

/-- Encoding the rune of a valid sequence of two bytes gives the sequence. -/
theorem EncodeRune_two (b0 b1 : Byte) (h0 : 0xC2 ≤ b0.val ∧ b0.val ≤ 0xDF)
    (h1 : 0x80 ≤ b1.val ∧ b1.val ≤ 0xBF) :
    EncodeRune (b0.val % 32 * 64 + b1.val % 64) = [b0, b1] := by
  unfold EncodeRune
  rw [if_neg (by omega), if_pos (by omega), byte_eq _ b0 (by omega), byte_eq _ b1 (by omega)]

/-- Encoding the rune of a valid sequence of three bytes gives the sequence. -/
theorem EncodeRune_three (b0 b1 b2 : Byte) (h : secondOfThree b0.val b1.val)
    (h2 : 0x80 ≤ b2.val ∧ b2.val ≤ 0xBF) :
    EncodeRune (b0.val % 16 * 4096 + b1.val % 64 * 64 + b2.val % 64) = [b0, b1, b2] := by
  obtain ⟨h0, hlo, hhi⟩ := h
  have hlo1 : 0x80 ≤ b1.val ∧ (b0.val = 0xE0 → 0xA0 ≤ b1.val) := by
    split_ifs at hlo <;> omega
  have hhi1 : b1.val ≤ 0xBF ∧ (b0.val = 0xED → b1.val ≤ 0x9F) := by
    split_ifs at hhi <;> omega
  unfold EncodeRune
  rw [if_neg (by omega), if_neg (by omega), if_neg (by omega), if_pos (by omega),
    byte_eq _ b0 (by omega), byte_eq _ b1 (by omega), byte_eq _ b2 (by omega)]

/-- Encoding the rune of a valid sequence of four bytes gives the sequence. -/
theorem EncodeRune_four (b0 b1 b2 b3 : Byte) (h : secondOfFour b0.val b1.val)
    (h2 : 0x80 ≤ b2.val ∧ b2.val ≤ 0xBF) (h3 : 0x80 ≤ b3.val ∧ b3.val ≤ 0xBF) :
    EncodeRune (b0.val % 8 * 262144 + b1.val % 64 * 4096 + b2.val % 64 * 64 + b3.val % 64)
      = [b0, b1, b2, b3] := by
  obtain ⟨h0, hlo, hhi⟩ := h
  have hlo1 : 0x80 ≤ b1.val ∧ (b0.val = 0xF0 → 0x90 ≤ b1.val) := by
    split_ifs at hlo <;> omega
  have hhi1 : b1.val ≤ 0xBF ∧ (b0.val = 0xF4 → b1.val ≤ 0x8F) := by
    split_ifs at hhi <;> omega
  unfold EncodeRune
  rw [if_neg (by omega), if_neg (by omega), if_neg (by omega), if_neg (by omega),
    byte_eq _ b0 (by omega), byte_eq _ b1 (by omega), byte_eq _ b2 (by omega),
    byte_eq _ b3 (by omega)]

/-- What the string functions need of a sequence that starts with a byte from
`RuneSelf` on and is not rejected: a width `n` from 2 to 4 and a rune `r` such
that the first `n` bytes, all from `RuneSelf` on, decode to `r` whatever
follows them, and `r` encodes to them. -/
theorem DecodeRune_valid (b0 : Byte) (t : List Byte) (h80 : 0x80 ≤ b0.val)
    (hv : ¬ ((DecodeRune (b0 :: t)).1 = RuneError ∧ (DecodeRune (b0 :: t)).2 = 1)) :
    ∃ (r : Nat) (pre rest : List Byte),
      b0 :: t = pre ++ rest ∧ 2 ≤ pre.length ∧ pre.length ≤ 4
      ∧ (∀ x ∈ pre, 0x80 ≤ x.val)
      ∧ (∀ tail, DecodeRune (pre ++ tail) = (r, pre.length))
      ∧ EncodeRune r = pre := by
  rcases validShape_of_DecodeRune b0 t h80 hv with
    ⟨c0, c1, t1, hs, h0, h1⟩ | ⟨c0, c1, c2, t2, hs, h, h2⟩ | ⟨c0, c1, c2, c3, t3, hs, h, h2, h3⟩
  · refine ⟨_, [c0, c1], t1, hs, by simp, by simp, ?_, fun tail => DecodeRune_two c0 c1 tail h0 h1,
      EncodeRune_two c0 c1 h0 h1⟩
    intro x hx
    simp only [List.mem_cons, List.mem_singleton, List.not_mem_nil, or_false] at hx
    rcases hx with rfl | rfl <;> omega
  · refine ⟨_, [c0, c1, c2], t2, hs, by simp, by simp, ?_,
      fun tail => DecodeRune_three c0 c1 c2 tail h h2, EncodeRune_three c0 c1 c2 h h2⟩
    obtain ⟨h0, hlo, hhi⟩ := h
    have hlo1 : 0x80 ≤ c1.val := by split_ifs at hlo <;> omega
    intro x hx
    simp only [List.mem_cons, List.mem_singleton, List.not_mem_nil, or_false] at hx
    rcases hx with rfl | rfl | rfl <;> omega
  · refine ⟨_, [c0, c1, c2, c3], t3, hs, by simp, by simp, ?_,
      fun tail => DecodeRune_four c0 c1 c2 c3 tail h h2 h3, EncodeRune_four c0 c1 c2 c3 h h2 h3⟩
    obtain ⟨h0, hlo, hhi⟩ := h
    have hlo1 : 0x80 ≤ c1.val := by split_ifs at hlo <;> omega
    intro x hx
    simp only [List.mem_cons, List.mem_singleton, List.not_mem_nil, or_false] at hx
    rcases hx with rfl | rfl | rfl | rfl <;> omega

/-! ### encoding/json: the scanner accepts what the encoder writes -/

/-- The scanner stops at a quote. -/
theorem scanString_quote (c : Byte) (rest : List Byte) (h : c.val = 0x22) :
    scanString (c :: rest) = some ([], rest) := by
  conv_lhs => rw [scanString.eq_def]
  simp only [if_pos h]

/-- The scanner goes on after a byte that is not a control byte, a quote or a
backslash. -/
theorem scanString_plain (c : Byte) (rest : List Byte)
    (h : 0x20 ≤ c.val ∧ c.val ≠ 0x22 ∧ c.val ≠ 0x5C) :
    scanString (c :: rest) = (scanString rest).map (fun p => (c :: p.1, p.2)) := by
  conv_lhs => rw [scanString.eq_def]
  simp only [if_neg h.2.1, if_neg h.2.2, if_neg (show ¬ c.val < 0x20 by omega)]

/-- The scanner goes on after a backslash and a simple escape letter. -/
theorem scanString_simple (c e : Byte) (rest : List Byte) (hc : c.val = 0x5C)
    (h : isSimpleEscape e = true) :
    scanString (c :: e :: rest) = (scanString rest).map (fun p => (c :: e :: p.1, p.2)) := by
  conv_lhs => rw [scanString.eq_def]
  simp only [if_neg (show ¬ c.val = 0x22 by omega), if_pos hc, h, if_true]

/-- The scanner goes on after `\u` and four hexadecimal digits. -/
theorem scanString_u (c e h1 h2 h3 h4 : Byte) (rest : List Byte) (hc : c.val = 0x5C)
    (he : e.val = 0x75)
    (h : (hexVal h1).isSome ∧ (hexVal h2).isSome ∧ (hexVal h3).isSome ∧ (hexVal h4).isSome) :
    scanString (c :: e :: h1 :: h2 :: h3 :: h4 :: rest)
      = (scanString rest).map (fun p => (c :: e :: h1 :: h2 :: h3 :: h4 :: p.1, p.2)) := by
  have hns : isSimpleEscape e = false := by
    simp only [isSimpleEscape, decide_eq_false_iff_not]
    omega
  conv_lhs => rw [scanString.eq_def]
  simp only [if_neg (show ¬ c.val = 0x22 by omega), if_pos hc, hns, Bool.false_eq_true,
    if_false, if_pos he, if_pos h]

/-- The scanner passes a byte that is not a control byte, a quote or a
backslash. -/
theorem scanOK_byte (c : Byte) (h : 0x20 ≤ c.val ∧ c.val ≠ 0x22 ∧ c.val ≠ 0x5C) :
    scanOK [c] := by
  intro tail
  rw [List.singleton_append, scanString_plain c tail h]
  rfl

/-- Nothing is a piece the scanner passes. -/
theorem scanOK_nil : scanOK [] := by
  intro tail
  simp only [List.nil_append]
  generalize scanString tail = r
  cases r <;> rfl

/-- Two pieces the scanner passes make one. -/
theorem scanOK_append (a b : List Byte) (ha : scanOK a) (hb : scanOK b) : scanOK (a ++ b) := by
  intro tail
  rw [List.append_assoc, ha, hb]
  generalize scanString tail = r
  cases r <;> simp

/-- The scanner passes bytes from `RuneSelf` on. -/
theorem scanOK_high (l : List Byte) (h : ∀ x ∈ l, 0x80 ≤ x.val) : scanOK l := by
  induction l with
  | nil => exact scanOK_nil
  | cons c rest ih =>
    have hc := h c (List.mem_cons_self _ _)
    exact scanOK_append [c] rest (scanOK_byte c (by omega))
      (ih (fun x hx => h x (List.mem_cons_of_mem _ hx)))

/-- The scanner passes a backslash followed by a simple escape letter. -/
theorem scanOK_simple (e : Byte) (h : isSimpleEscape e = true) : scanOK [cBackslash, e] := by
  intro tail
  simp only [List.cons_append, List.nil_append]
  rw [scanString_simple _ _ _ (by decide) h]

/-- The scanner passes `\u` followed by four hexadecimal digits. -/
theorem scanOK_u (h1 h2 h3 h4 : Byte)
    (h : (hexVal h1).isSome ∧ (hexVal h2).isSome ∧ (hexVal h3).isSome ∧ (hexVal h4).isSome) :
    scanOK [cBackslash, 0x75, h1, h2, h3, h4] := by
  intro tail
  simp only [List.cons_append, List.nil_append]
  rw [scanString_u _ _ _ _ _ _ _ (by decide) (by decide) h]

/-- A hexadecimal digit has the value it was made from. -/
theorem hexVal_hexDigit : ∀ n : Fin 16, hexVal (hexDigit n.val) = some n.val := by
  decide

/-- The digit of a number below 16 is a hexadecimal digit. -/
theorem hexDigit_isSome (n : Nat) (h : n < 16) : (hexVal (hexDigit n)).isSome = true := by
  rw [hexVal_hexDigit ⟨n, h⟩]
  rfl

/-- The scanner passes the escape of a byte. -/
theorem scanOK_escapeByte (b : Byte) : scanOK (escapeByte b) := by
  unfold escapeByte
  split_ifs with h1 h2 h3 h4 h5 h6
  · apply scanOK_simple
    simp only [isSimpleEscape, decide_eq_true_eq]
    omega
  · exact scanOK_simple _ (by decide)
  · exact scanOK_simple _ (by decide)
  · exact scanOK_simple _ (by decide)
  · exact scanOK_simple _ (by decide)
  · exact scanOK_simple _ (by decide)
  · have := b.isLt
    exact scanOK_u _ _ _ _ ⟨by decide, by decide, hexDigit_isSome _ (by omega),
      hexDigit_isSome _ (by omega)⟩

/-- The scanner passes what `appendString` writes between the quotes and stops
at the closing quote. -/
theorem scanString_appendStringAux (fuel : Nat) (s rest : List Byte) :
    scanString (appendStringAux fuel s ++ cQuote :: rest)
      = some (appendStringAux fuel s, rest) := by
  have hquote : ∀ r, scanString (cQuote :: r) = some ([], r) :=
    fun r => scanString_quote cQuote r (by decide)
  induction fuel generalizing s with
  | zero => exact hquote rest
  | succ fuel ih =>
    cases s with
    | nil => exact hquote rest
    | cons b tl =>
      have hstep : ∀ chunk s1, scanOK chunk →
          scanString ((chunk ++ appendStringAux fuel s1) ++ cQuote :: rest)
            = some (chunk ++ appendStringAux fuel s1, rest) := by
        intro chunk s1 hc
        rw [List.append_assoc, hc, ih s1]
        rfl
      simp only [appendStringAux]
      by_cases hb : b.val < RuneSelf
      · rw [if_pos hb]
        apply hstep
        by_cases hs : htmlSafeSet b.val = true
        · rw [if_pos hs]
          simp only [htmlSafeSet, decide_eq_true_eq] at hs
          exact scanOK_byte b (by omega)
        · rw [if_neg hs]
          exact scanOK_escapeByte b
      · rw [if_neg hb]
        by_cases hinv : (DecodeRune ((b :: tl).take UTFMax)).1 = RuneError
            ∧ (DecodeRune ((b :: tl).take UTFMax)).2 = 1
        · rw [if_pos hinv]
          exact hstep _ _ (scanOK_u _ _ _ _ (by decide))
        · rw [if_neg hinv]
          by_cases hsep : (DecodeRune ((b :: tl).take UTFMax)).1 = 0x2028
              ∨ (DecodeRune ((b :: tl).take UTFMax)).1 = 0x2029
          · rw [if_pos hsep]
            apply hstep
            refine scanOK_u _ _ _ _ ⟨by decide, by decide, by decide, hexDigit_isSome _ (by omega)⟩
          · rw [if_neg hsep]
            apply hstep
            have htake : (b :: tl).take UTFMax = b :: tl.take 3 := rfl
            rw [htake] at hinv ⊢
            unfold RuneSelf at hb
            obtain ⟨r, pre, rest1, hsplit, hlen2, hlen4, hhigh, hdec, _⟩ :=
              DecodeRune_valid b (tl.take 3) (by omega) hinv
            have hd := hdec rest1
            rw [← hsplit] at hd
            rw [hd]
            have hpre : (b :: tl).take pre.length = pre := by
              have h4 : ((b :: tl).take 4).take pre.length = pre := by
                rw [show (b :: tl).take 4 = b :: tl.take 3 from rfl, hsplit]
                simp
              rw [List.take_take, Nat.min_eq_left hlen4] at h4
              exact h4
            simp only [hpre]
            exact scanOK_high pre hhigh

/-! ### encoding/json: unquoting gives back what the encoder escaped -/

/-- `unquoteBytes` copies an ASCII byte that is not a control byte, a quote or
a backslash. -/
theorem unquoteOK_ascii (c : Byte)
    (h : 0x20 ≤ c.val ∧ c.val < 0x80 ∧ c.val ≠ 0x22 ∧ c.val ≠ 0x5C) : unquoteOK [c] [c] := by
  intro fuel tail
  rw [List.singleton_append]
  conv_lhs => rw [unquoteAux.eq_def]
  simp only [if_neg h.2.2.2, if_neg (show ¬ (c.val = 0x22 ∨ c.val < 0x20) by omega), RuneSelf,
    if_pos h.2.1]
  rfl

/-- `unquoteBytes` on `\u` and four hexadecimal digits that do not name a
surrogate: the encoding of the rune named. -/
theorem unquoteOK_u (h1 h2 h3 h4 : Byte) (rr : Nat)
    (hrr : ∀ tail, getu4 ([cBackslash, 0x75, h1, h2, h3, h4] ++ tail) = some rr)
    (hsur : ¬ (0xD800 ≤ rr ∧ rr < 0xE000)) :
    unquoteOK [cBackslash, 0x75, h1, h2, h3, h4] (EncodeRune rr) := by
  intro fuel tail
  have hg := hrr tail
  simp only [List.cons_append, List.nil_append] at hg ⊢
  conv_lhs => rw [unquoteAux.eq_def]
  simp only [show cBackslash.val = 0x5C by decide, if_true,
    show ¬ ((0x75 : Byte).val = 0x22 ∨ (0x75 : Byte).val = 0x5C ∨ (0x75 : Byte).val = 0x2F
      ∨ (0x75 : Byte).val = 0x27) by decide, if_false,
    show ¬ ((0x75 : Byte).val = 0x62) by decide, show ¬ ((0x75 : Byte).val = 0x66) by decide,
    show ¬ ((0x75 : Byte).val = 0x6E) by decide, show ¬ ((0x75 : Byte).val = 0x72) by decide,
    show ¬ ((0x75 : Byte).val = 0x74) by decide, show (0x75 : Byte).val = 0x75 by decide,
    hg, if_neg hsur]
  rfl

/-- `unquoteBytes` on a backslash and one of `"` and `\`: that byte. -/
theorem unquoteOK_self (e : Byte) (h : e.val = 0x22 ∨ e.val = 0x5C) :
    unquoteOK [cBackslash, e] [e] := by
  intro fuel tail
  simp only [List.cons_append, List.nil_append]
  conv_lhs => rw [unquoteAux.eq_def]
  simp only [show cBackslash.val = 0x5C by decide, if_true,
    if_pos (show e.val = 0x22 ∨ e.val = 0x5C ∨ e.val = 0x2F ∨ e.val = 0x27 by omega)]

/-- `unquoteBytes` on a backslash and a letter of `b f n r t`. -/
theorem unquoteOK_letter (e d : Byte)
    (h : (e.val = 0x62 ∧ d.val = 0x08) ∨ (e.val = 0x66 ∧ d.val = 0x0C)
      ∨ (e.val = 0x6E ∧ d.val = 0x0A) ∨ (e.val = 0x72 ∧ d.val = 0x0D)
      ∨ (e.val = 0x74 ∧ d.val = 0x09)) :
    unquoteOK [cBackslash, e] [d] := by
  intro fuel tail
  simp only [List.cons_append, List.nil_append]
  conv_lhs => rw [unquoteAux.eq_def]
  simp only [show cBackslash.val = 0x5C by decide, if_true,
    if_neg (show ¬ (e.val = 0x22 ∨ e.val = 0x5C ∨ e.val = 0x2F ∨ e.val = 0x27) by omega)]
  rcases h with ⟨he, hd⟩ | ⟨he, hd⟩ | ⟨he, hd⟩ | ⟨he, hd⟩ | ⟨he, hd⟩
  · rw [if_pos he, ← Fin.ext (show d.val = (0x08 : Byte).val from hd)]
  · rw [if_neg (by omega), if_pos he, ← Fin.ext (show d.val = (0x0C : Byte).val from hd)]
  · rw [if_neg (by omega), if_neg (by omega), if_pos he,
      ← Fin.ext (show d.val = (0x0A : Byte).val from hd)]
  · rw [if_neg (by omega), if_neg (by omega), if_neg (by omega), if_pos he,
      ← Fin.ext (show d.val = (0x0D : Byte).val from hd)]
  · rw [if_neg (by omega), if_neg (by omega), if_neg (by omega), if_neg (by omega), if_pos he,
      ← Fin.ext (show d.val = (0x09 : Byte).val from hd)]

/-- `getu4` on `\u00` and the two digits of a byte: the value of the byte. -/
theorem getu4_byte (b : Byte) (tail : List Byte) :
    getu4 ([cBackslash, 0x75, 0x30, 0x30, hexDigit (b.val / 16), hexDigit (b.val % 16)] ++ tail)
      = some b.val := by
  have := b.isLt
  simp only [List.cons_append, List.nil_append, getu4]
  rw [if_pos (by decide), hexVal_hexDigit ⟨b.val / 16, by omega⟩,
    hexVal_hexDigit ⟨b.val % 16, by omega⟩, show hexVal (0x30 : Byte) = some 0 by decide]
  simp only [Option.some.injEq]
  omega

/-- `unquoteBytes` gives back an ASCII byte from its escape. -/
theorem unquoteOK_escapeByte (b : Byte) (hb : b.val < 0x80) :
    unquoteOK (escapeByte b) [b] := by
  unfold escapeByte
  split_ifs with h1 h2 h3 h4 h5 h6
  · exact unquoteOK_self b (by omega)
  · exact unquoteOK_letter _ b (Or.inl ⟨by decide, h2⟩)
  · exact unquoteOK_letter _ b (Or.inr (Or.inl ⟨by decide, h3⟩))
  · exact unquoteOK_letter _ b (Or.inr (Or.inr (Or.inl ⟨by decide, h4⟩)))
  · exact unquoteOK_letter _ b (Or.inr (Or.inr (Or.inr (Or.inl ⟨by decide, h5⟩))))
  · exact unquoteOK_letter _ b (Or.inr (Or.inr (Or.inr (Or.inr ⟨by decide, h6⟩))))
  · have henc : EncodeRune b.val = [b] := by
      unfold EncodeRune
      rw [if_pos (by omega), byte_eq _ b rfl]
    rw [← henc]
    exact unquoteOK_u _ _ _ _ b.val (getu4_byte b) (by omega)

/-- `unquoteBytes` re-encodes a valid sequence of more than one byte to
itself. -/
theorem unquoteOK_high (pre : List Byte) (r : Nat) (hlen : 2 ≤ pre.length)
    (hhigh : ∀ x ∈ pre, 0x80 ≤ x.val)
    (hdec : ∀ tail, DecodeRune (pre ++ tail) = (r, pre.length)) (henc : EncodeRune r = pre) :
    unquoteOK pre pre := by
  intro fuel tail
  cases pre with
  | nil => simp at hlen
  | cons c rest =>
    have hc := hhigh c (List.mem_cons_self _ _)
    have hd := hdec tail
    rw [List.cons_append] at hd ⊢
    conv_lhs => rw [unquoteAux.eq_def]
    simp only [if_neg (show ¬ c.val = 0x5C by omega),
      if_neg (show ¬ (c.val = 0x22 ∨ c.val < 0x20) by omega), RuneSelf,
      if_neg (show ¬ c.val < 0x80 by omega), hd, henc]
    rw [← List.cons_append, List.drop_left]

/-- What `appendString` writes for the first rune of a valid string, and the
string after that rune: a piece that `unquoteBytes` turns back into the bytes
of the rune. -/
theorem appendStringAux_step (fuel : Nat) (b : Byte) (tl : List Byte)
    (hv : ¬ ((DecodeRune (b :: tl)).1 = RuneError ∧ (DecodeRune (b :: tl)).2 = 1)) :
    ∃ chunk pre rest, b :: tl = pre ++ rest ∧ 1 ≤ pre.length ∧ 1 ≤ chunk.length
      ∧ rest = (b :: tl).drop (DecodeRune (b :: tl)).2
      ∧ appendStringAux (fuel + 1) (b :: tl) = chunk ++ appendStringAux fuel rest
      ∧ unquoteOK chunk pre := by
  by_cases hb : b.val < 0x80
  · refine ⟨if htmlSafeSet b.val then [b] else escapeByte b, [b], tl, rfl, by simp, ?_, ?_, ?_, ?_⟩
    · split_ifs
      · simp
      · unfold escapeByte
        split_ifs <;> simp
    · rw [DecodeRune_ascii b tl hb]
      rfl
    · simp only [appendStringAux, RuneSelf, if_pos hb]
    · by_cases hs : htmlSafeSet b.val = true
      · rw [if_pos hs]
        simp only [htmlSafeSet, decide_eq_true_eq] at hs
        exact unquoteOK_ascii b (by omega)
      · rw [if_neg hs]
        exact unquoteOK_escapeByte b hb
  · obtain ⟨r, pre, rest, hsplit, hlen2, hlen4, hhigh, hdec, henc⟩ :=
      DecodeRune_valid b tl (by omega) hv
    have hd : DecodeRune (b :: tl) = (r, pre.length) := by rw [hsplit]; exact hdec rest
    have hd4 : DecodeRune ((b :: tl).take UTFMax) = (r, pre.length) := by
      have h4 : (b :: tl).take UTFMax = pre ++ rest.take (4 - pre.length) := by
        rw [hsplit, List.take_append_eq_append_take,
          List.take_of_length_le (show pre.length ≤ UTFMax from hlen4)]
        rfl
      rw [h4]
      exact hdec _
    have hdrop : (b :: tl).drop pre.length = rest := by rw [hsplit, List.drop_left]
    have htake : (b :: tl).take pre.length = pre := by rw [hsplit, List.take_left]
    have hninv : ¬ (r = RuneError ∧ pre.length = 1) := by omega
    by_cases hsep : r = 0x2028 ∨ r = 0x2029
    · refine ⟨[cBackslash, 0x75, 0x32, 0x30, 0x32, hexDigit (r % 16)], pre, rest, hsplit,
        by omega, by simp, by rw [hd, hdrop], ?_, ?_⟩
      · simp only [appendStringAux, RuneSelf, if_neg hb, hd4, if_neg hninv, if_pos hsep, hdrop]
      · rw [← henc]
        apply unquoteOK_u
        · intro tail
          rcases hsep with h | h <;> rw [h] <;> rfl
        · omega
    · refine ⟨pre, pre, rest, hsplit, by omega, by omega, by rw [hd, hdrop], ?_, ?_⟩
      · simp only [appendStringAux, RuneSelf, if_neg hb, hd4, if_neg hninv, if_neg hsep, hdrop,
          htake]
      · exact unquoteOK_high pre r hlen2 hhigh hdec henc

/-- `unquoteBytes` gives back a valid UTF-8 string from what `appendString`
wrote between the quotes. -/
theorem unquoteAux_appendStringAux (fuel : Nat) (s : List Byte) (hlen : s.length ≤ fuel)
    (hvalid : ValidAux fuel s = true) (fuel2 : Nat)
    (hfuel2 : (appendStringAux fuel s).length ≤ fuel2) :
    unquoteAux fuel2 (appendStringAux fuel s) = some s := by
  have hnil : ∀ f, unquoteAux f [] = some [] := by
    intro f
    cases f <;> rfl
  induction fuel generalizing s fuel2 with
  | zero =>
    have hs : s = [] := List.length_eq_zero.mp (Nat.le_zero.mp hlen)
    subst hs
    exact hnil fuel2
  | succ fuel ih =>
    cases s with
    | nil => exact hnil fuel2
    | cons b tl =>
      have hv : ¬ ((DecodeRune (b :: tl)).1 = RuneError ∧ (DecodeRune (b :: tl)).2 = 1) := by
        intro h
        simp only [ValidAux, if_pos h] at hvalid
        exact Bool.noConfusion hvalid
      have hvrest : ValidAux fuel ((b :: tl).drop (DecodeRune (b :: tl)).2) = true := by
        simp only [ValidAux, if_neg hv] at hvalid
        exact hvalid
      obtain ⟨chunk, pre, rest, hsplit, hpre, hchunk, hrest, hstep, hok⟩ :=
        appendStringAux_step fuel b tl hv
      rw [← hrest] at hvrest
      have hrlen : rest.length ≤ fuel := by
        have := congrArg List.length hsplit
        simp only [List.length_cons, List.length_append] at this hlen
        omega
      rw [hstep] at hfuel2 ⊢
      rw [List.length_append] at hfuel2
      cases fuel2 with
      | zero => omega
      | succ f2 =>
        rw [hok f2, ih rest hrlen hvrest f2 (by omega), hsplit]
        rfl

/-- `unquoteBytes` undoes `appendString` on valid UTF-8. -/
theorem unquote_escaped (s : GoString) (hvalid : ValidString s = true) :
    unquote (escaped s) = some s :=
  unquoteAux_appendStringAux s.length s (Nat.le_refl _) hvalid _ (Nat.le_refl _)

/-- The scanner delimits the literal `appendString` writes. -/
theorem scanString_escaped (s : GoString) (rest : List Byte) :
    scanString (escaped s ++ cQuote :: rest) = some (escaped s, rest) :=
  scanString_appendStringAux s.length s rest

/-! ### encoding/json: the scanner on an encoded configuration -/

/-- White space before a value is passed. -/
theorem skipSpace_append (ws t : List Byte) (hws : ∀ x ∈ ws, isSpace x = true) :
    skipSpace (ws ++ t) = skipSpace t := by
  induction ws with
  | nil => rfl
  | cons c rest ih =>
    have hc := hws c (List.mem_cons_self _ _)
    have hstep : skipSpace (c :: (rest ++ t)) = skipSpace (rest ++ t) := by
      simp only [skipSpace, List.dropWhile_cons, hc, if_true]
    rw [List.cons_append, hstep, ih (fun x hx => hws x (List.mem_cons_of_mem _ hx))]

/-- A byte that is not white space stops the passing of white space. -/
theorem skipSpace_cons (c : Byte) (t : List Byte) (hc : isSpace c = false) :
    skipSpace (c :: t) = c :: t := by
  simp only [skipSpace, List.dropWhile_cons, hc, Bool.false_eq_true, if_false]

/-- A newline and its indent are white space. -/
theorem newlineIndent_space (depth : Nat) : ∀ x ∈ newlineIndent depth, isSpace x = true := by
  intro x hx
  simp only [newlineIndent, List.mem_cons, List.mem_replicate] at hx
  rcases hx with rfl | ⟨_, rfl⟩ <;> decide

/-- White space and then a byte that is not white space. -/
theorem skipSpace_to (ws : List Byte) (c : Byte) (t : List Byte)
    (hws : ∀ x ∈ ws, isSpace x = true) (hc : isSpace c = false) :
    skipSpace (ws ++ c :: t) = c :: t := by
  rw [skipSpace_append ws _ hws, skipSpace_cons c t hc]

/-- The scanner delimits a key that needs no escape. -/
theorem scanString_key (k rest : List Byte)
    (hk : ∀ x ∈ k, 0x20 ≤ x.val ∧ x.val ≠ 0x22 ∧ x.val ≠ 0x5C) :
    scanString (k ++ cQuote :: rest) = some (k, rest) := by
  induction k with
  | nil => exact scanString_quote cQuote rest (by decide)
  | cons c tl ih =>
    rw [List.cons_append, scanString_plain c _ (hk c (List.mem_cons_self _ _)),
      ih (fun x hx => hk x (List.mem_cons_of_mem _ hx))]
    rfl

/-- A value that starts with a quote is a string. -/
theorem parseValueWith_quote (sub : Option (List Byte → Option (JSON × List Byte)))
    (s r : List Byte) (c : Byte) (hs : skipSpace s = c :: r) (hc : c.val = 0x22) :
    parseValueWith sub s = (scanString r).map (fun p => (JSON.string p.1, p.2)) := by
  unfold parseValueWith
  rw [hs]
  simp only [if_neg (show ¬ c.val = 0x7B by omega), if_neg (show ¬ c.val = 0x5B by omega),
    if_pos hc]

/-- A value that starts with a brace is an object, empty or with members. -/
theorem parseValueWith_brace (pv : List Byte → Option (JSON × List Byte))
    (s r r1 : List Byte) (c c1 : Byte) (hs : skipSpace s = c :: r) (hc : c.val = 0x7B)
    (hr : skipSpace r = c1 :: r1) (hc1 : c1.val ≠ 0x7D) :
    parseValueWith (some pv) s
      = (parseMembers pv r.length r).map (fun p => (JSON.object p.1, p.2)) := by
  unfold parseValueWith
  rw [hs]
  simp only [if_pos hc, hr, if_neg hc1]

/-- A value that starts with a bracket and goes on with an element is an
array with elements. -/
theorem parseValueWith_bracket (pv : List Byte → Option (JSON × List Byte))
    (s r r1 : List Byte) (c c1 : Byte) (hs : skipSpace s = c :: r) (hc : c.val = 0x5B)
    (hr : skipSpace r = c1 :: r1) (hc1 : c1.val ≠ 0x5D) :
    parseValueWith (some pv) s
      = (parseElems pv r.length r).map (fun p => (JSON.array p.1, p.2)) := by
  unfold parseValueWith
  rw [hs]
  simp only [if_neg (show ¬ c.val = 0x7B by omega), if_pos hc, hr, if_neg hc1]

/-- The scanner at any depth is the scanner of one value. -/
theorem parseValue_eq (depth : Nat) : ∃ sub, parseValue depth = parseValueWith sub := by
  cases depth with
  | zero => exact ⟨none, rfl⟩
  | succ d => exact ⟨some (parseValue d), rfl⟩

/-- The scanner delimits the literal of a string, white space before it
passed. -/
theorem parseValue_string (depth : Nat) (ws : List Byte) (s : GoString) (rest : List Byte)
    (hws : ∀ x ∈ ws, isSpace x = true) :
    parseValue depth (ws ++ (appendString s ++ rest))
      = some (JSON.string (escaped s), rest) := by
  obtain ⟨sub, hsub⟩ := parseValue_eq depth
  have happ : appendString s ++ rest = cQuote :: (escaped s ++ cQuote :: rest) := by
    simp [appendString, escaped]
  rw [hsub, happ,
    parseValueWith_quote sub _ _ cQuote (skipSpace_to ws cQuote _ hws (by decide)) (by decide),
    scanString_escaped]
  rfl

/-- One member of an object: a key, a colon, a value, and then a comma and the
members after it. -/
theorem parseMembers_comma (pv : List Byte → Option (JSON × List Byte)) (fuel : Nat)
    (ws1 key r2 r3 ws2 r4 : List Byte) (v : JSON)
    (hws1 : ∀ x ∈ ws1, isSpace x = true)
    (hkey : ∀ x ∈ key, 0x20 ≤ x.val ∧ x.val ≠ 0x22 ∧ x.val ≠ 0x5C)
    (hv : pv r2 = some (v, r3)) (hr3 : r3 = ws2 ++ 0x2C :: r4)
    (hws2 : ∀ x ∈ ws2, isSpace x = true) :
    parseMembers pv (fuel + 1) (ws1 ++ cQuote :: (key ++ cQuote :: 0x3A :: r2))
      = (parseMembers pv fuel r4).map (fun p => ((key, v) :: p.1, p.2)) := by
  conv_lhs => rw [parseMembers.eq_def]
  simp only [skipSpace_to ws1 cQuote _ hws1 (by decide), show cQuote.val = 0x22 by decide,
    if_true, scanString_key key _ hkey, skipSpace_cons (0x3A : Byte) r2 (by decide),
    show (0x3A : Byte).val = 0x3A by decide, hv, hr3,
    skipSpace_to ws2 (0x2C : Byte) r4 hws2 (by decide),
    show (0x2C : Byte).val = 0x2C by decide]

/-- The last member of an object: a key, a colon, a value, and then the
closing brace. -/
theorem parseMembers_last (pv : List Byte → Option (JSON × List Byte)) (fuel : Nat)
    (ws1 key r2 r3 ws2 r4 : List Byte) (v : JSON)
    (hws1 : ∀ x ∈ ws1, isSpace x = true)
    (hkey : ∀ x ∈ key, 0x20 ≤ x.val ∧ x.val ≠ 0x22 ∧ x.val ≠ 0x5C)
    (hv : pv r2 = some (v, r3)) (hr3 : r3 = ws2 ++ 0x7D :: r4)
    (hws2 : ∀ x ∈ ws2, isSpace x = true) :
    parseMembers pv (fuel + 1) (ws1 ++ cQuote :: (key ++ cQuote :: 0x3A :: r2))
      = some ([(key, v)], r4) := by
  conv_lhs => rw [parseMembers.eq_def]
  simp only [skipSpace_to ws1 cQuote _ hws1 (by decide), show cQuote.val = 0x22 by decide,
    if_true, scanString_key key _ hkey, skipSpace_cons (0x3A : Byte) r2 (by decide),
    show (0x3A : Byte).val = 0x3A by decide, hv, hr3,
    skipSpace_to ws2 (0x7D : Byte) r4 hws2 (by decide),
    show ¬ ((0x7D : Byte).val = 0x2C) by decide, if_false,
    show (0x7D : Byte).val = 0x7D by decide]
  rw [if_neg (by decide)]

set_option maxRecDepth 100000 in
/-- The keys of the encoding need no escape. -/
theorem keys_plain :
    (∀ x ∈ lit "Name", 0x20 ≤ x.val ∧ x.val ≠ 0x22 ∧ x.val ≠ 0x5C)
    ∧ (∀ x ∈ lit "Dir", 0x20 ≤ x.val ∧ x.val ≠ 0x22 ∧ x.val ≠ 0x5C)
    ∧ (∀ x ∈ lit "Shares", 0x20 ≤ x.val ∧ x.val ≠ 0x22 ∧ x.val ≠ 0x5C) := by
  decide

/-- A single space is white space. -/
theorem space_isSpace : ∀ x ∈ [(0x20 : Byte)], isSpace x = true := by
  intro x hx
  rw [List.mem_singleton.mp hx]
  rfl

/-- The scanner delimits the encoding of a share, white space before it
passed, when a level of nesting is left. -/
theorem parseValue_share (depth : Nat) (ws : List Byte) (s : Share) (rest : List Byte)
    (hws : ∀ x ∈ ws, isSpace x = true) :
    parseValue (depth + 1) (ws ++ (encodeShare s ++ rest)) = some (shareJSON s, rest) := by
  have hshape : encodeShare s ++ rest
      = 0x7B :: (newlineIndent 3 ++ cQuote :: (lit "Name" ++ cQuote :: 0x3A ::
          ([0x20] ++ (appendString s.Name ++ ([] ++ 0x2C :: (newlineIndent 3 ++ cQuote ::
            (lit "Dir" ++ cQuote :: 0x3A :: ([0x20] ++ (appendString s.Dir
              ++ (newlineIndent 2 ++ 0x7D :: rest)))))))))) := by
    simp only [encodeShare, List.append_assoc, List.cons_append, List.nil_append,
      List.singleton_append]
  have hsp := space_isSpace
  have hnil : ∀ x ∈ ([] : List Byte), isSpace x = true := fun x hx => absurd hx (List.not_mem_nil x)
  have hlen : 2 ≤ (newlineIndent 3 ++ cQuote :: (lit "Name" ++ cQuote :: 0x3A ::
          ([0x20] ++ (appendString s.Name ++ ([] ++ 0x2C :: (newlineIndent 3 ++ cQuote ::
            (lit "Dir" ++ cQuote :: 0x3A :: ([0x20] ++ (appendString s.Dir
              ++ (newlineIndent 2 ++ 0x7D :: rest)))))))))).length := by
    simp [newlineIndent]
  rw [hshape]
  show parseValueWith (some (parseValue depth)) _ = _
  rw [parseValueWith_brace (parseValue depth) _ _ _ (0x7B : Byte) cQuote
    (skipSpace_to ws _ _ hws (by decide)) (by decide)
    (skipSpace_to _ cQuote _ (newlineIndent_space 3) (by decide)) (by decide)]
  obtain ⟨n, hn⟩ := Nat.exists_eq_add_of_le hlen
  rw [hn, show 2 + n = (n + 1) + 1 by omega,
    parseMembers_comma (parseValue depth) (n + 1) _ _ _ _ _ _ _ (newlineIndent_space 3)
      keys_plain.1 (parseValue_string depth _ s.Name _ hsp) rfl hnil,
    parseMembers_last (parseValue depth) n _ _ _ _ _ _ _ (newlineIndent_space 3)
      keys_plain.2.1 (parseValue_string depth _ s.Dir _ hsp) rfl (newlineIndent_space 2)]
  rfl

/-- An element of an array followed by a comma and the elements after it. -/
theorem parseElems_comma (pv : List Byte → Option (JSON × List Byte)) (fuel : Nat)
    (s r ws r1 : List Byte) (v : JSON) (hv : pv s = some (v, r)) (hr : r = ws ++ 0x2C :: r1)
    (hws : ∀ x ∈ ws, isSpace x = true) :
    parseElems pv (fuel + 1) s = (parseElems pv fuel r1).map (fun p => (v :: p.1, p.2)) := by
  conv_lhs => rw [parseElems.eq_def]
  simp only [hv, hr, skipSpace_to ws (0x2C : Byte) r1 hws (by decide),
    show (0x2C : Byte).val = 0x2C by decide, if_true]

/-- The last element of an array followed by the closing bracket. -/
theorem parseElems_last (pv : List Byte → Option (JSON × List Byte)) (fuel : Nat)
    (s r ws r1 : List Byte) (v : JSON) (hv : pv s = some (v, r)) (hr : r = ws ++ 0x5D :: r1)
    (hws : ∀ x ∈ ws, isSpace x = true) :
    parseElems pv (fuel + 1) s = some ([v], r1) := by
  conv_lhs => rw [parseElems.eq_def]
  simp only [hv, hr, skipSpace_to ws (0x5D : Byte) r1 hws (by decide),
    show ¬ ((0x5D : Byte).val = 0x2C) by decide, if_false,
    show (0x5D : Byte).val = 0x5D by decide, if_true]
  rw [if_neg (by decide)]

/-- The scanner delimits the elements of an encoded list of shares. -/
theorem parseElems_shares (depth : Nat) (l : List Share) (s0 : Share) (fuel : Nat)
    (hfuel : (s0 :: l).length ≤ fuel) (rest : List Byte) :
    parseElems (parseValue (depth + 1)) fuel
        (encodeShareList (s0 :: l) ++ (newlineIndent 1 ++ 0x5D :: rest))
      = some ((s0 :: l).map shareJSON, rest) := by
  induction l generalizing s0 fuel with
  | nil =>
    obtain ⟨n, rfl⟩ : ∃ n, fuel = n + 1 := ⟨fuel - 1, by simp at hfuel; omega⟩
    have hshape : encodeShareList [s0] ++ (newlineIndent 1 ++ 0x5D :: rest)
        = newlineIndent 2 ++ (encodeShare s0 ++ (newlineIndent 1 ++ 0x5D :: rest)) := by
      simp only [encodeShareList, List.append_assoc]
    rw [hshape, parseElems_last _ n _ _ _ _ _
      (parseValue_share depth _ s0 _ (newlineIndent_space 2)) rfl (newlineIndent_space 1)]
    rfl
  | cons s1 l ih =>
    obtain ⟨n, rfl⟩ : ∃ n, fuel = n + 1 := ⟨fuel - 1, by simp at hfuel; omega⟩
    have hn : (s1 :: l).length ≤ n := by
      simp only [List.length_cons] at hfuel ⊢
      omega
    have hshape : encodeShareList (s0 :: s1 :: l) ++ (newlineIndent 1 ++ 0x5D :: rest)
        = newlineIndent 2 ++ (encodeShare s0 ++ ([] ++ 0x2C ::
            (encodeShareList (s1 :: l) ++ (newlineIndent 1 ++ 0x5D :: rest)))) := by
      simp only [encodeShareList, List.append_assoc, List.cons_append, List.nil_append,
        List.singleton_append]
    rw [hshape, parseElems_comma _ n _ _ _ _ _
      (parseValue_share depth _ s0 _ (newlineIndent_space 2)) rfl
      (fun x hx => absurd hx (List.not_mem_nil x)), ih s1 n hn]
    rfl

/-- The encoding of a list of shares is at least as long as the list. -/
theorem length_le_encodeShareList (l : List Share) : l.length ≤ (encodeShareList l).length := by
  induction l with
  | nil => exact Nat.le_refl _
  | cons s rest ih =>
    cases rest with
    | nil => simp [encodeShareList, newlineIndent]
    | cons s1 rest1 =>
      simp only [encodeShareList, List.length_append, List.length_cons] at ih ⊢
      omega

/-- The scanner delimits the encoding of the field `Shares`, white space
before it passed, when two levels of nesting are left. -/
theorem parseValue_shares (depth : Nat) (ws : List Byte) (sh : Option (List Share))
    (rest : List Byte) (hws : ∀ x ∈ ws, isSpace x = true) :
    parseValue (depth + 2) (ws ++ (encodeShares sh ++ rest)) = some (sharesJSON sh, rest) := by
  show parseValueWith (some (parseValue (depth + 1))) _ = _
  rcases sh with _ | _ | ⟨s0, l⟩
  · have hshape : encodeShares none ++ rest = 0x6E :: ([0x75, 0x6C, 0x6C] ++ rest) := rfl
    unfold parseValueWith
    rw [hshape, skipSpace_to ws _ _ hws (by decide)]
    rfl
  · have hshape : encodeShares (some []) ++ rest = 0x5B :: ([] ++ 0x5D :: rest) := rfl
    unfold parseValueWith
    rw [hshape, skipSpace_to ws _ _ hws (by decide)]
    rfl
  · have hshape : encodeShares (some (s0 :: l)) ++ rest
        = 0x5B :: (encodeShareList (s0 :: l) ++ (newlineIndent 1 ++ 0x5D :: rest)) := by
      simp only [encodeShares, List.append_assoc, List.cons_append, List.nil_append,
        List.singleton_append]
    have hstart : ∃ t, encodeShareList (s0 :: l) ++ (newlineIndent 1 ++ 0x5D :: rest)
        = newlineIndent 2 ++ 0x7B :: t := by
      obtain ⟨t0, ht0⟩ : ∃ t0, encodeShare s0 = 0x7B :: t0 := ⟨_, rfl⟩
      obtain ⟨m, hm⟩ : ∃ m, encodeShareList (s0 :: l) = newlineIndent 2 ++ (encodeShare s0 ++ m) := by
        cases l with
        | nil => exact ⟨[], by simp [encodeShareList]⟩
        | cons s1 l1 => exact ⟨[0x2C] ++ encodeShareList (s1 :: l1), by simp [encodeShareList]⟩
      refine ⟨t0 ++ (m ++ (newlineIndent 1 ++ 0x5D :: rest)), ?_⟩
      rw [hm, ht0]
      simp only [List.append_assoc, List.cons_append]
    obtain ⟨t, ht⟩ := hstart
    rw [hshape, parseValueWith_bracket (parseValue (depth + 1)) _ _ t (0x5B : Byte) (0x7B : Byte)
      (skipSpace_to ws _ _ hws (by decide)) (by decide)
      (by rw [ht]; exact skipSpace_to _ _ _ (newlineIndent_space 2) (by decide)) (by decide),
      parseElems_shares depth l s0 _ (by
        have := length_le_encodeShareList (s0 :: l)
        rw [List.length_append]
        omega)]
    rfl

/-- The scanner delimits the encoding of a configuration; the final newline
is left. -/
theorem parseValue_encodeConfig (c : Config) :
    parseValue maxNestingDepth (encodeConfig c) = some (configJSON c, [0x0A]) := by
  have hshape : encodeConfig c
      = [] ++ 0x7B :: (newlineIndent 1 ++ cQuote :: (lit "Shares" ++ cQuote :: 0x3A ::
          ([0x20] ++ (encodeShares c.Shares ++ (newlineIndent 0 ++ 0x7D :: [0x0A]))))) := by
    simp only [encodeConfig, List.append_assoc, List.cons_append, List.nil_append,
      List.singleton_append]
  have hlen : 1 ≤ (newlineIndent 1 ++ cQuote :: (lit "Shares" ++ cQuote :: 0x3A ::
          ([0x20] ++ (encodeShares c.Shares ++ (newlineIndent 0 ++ 0x7D :: [0x0A]))))).length := by
    simp [newlineIndent]
  obtain ⟨n, hn⟩ := Nat.exists_eq_add_of_le hlen
  show parseValueWith (some (parseValue (9997 + 2))) _ = _
  rw [hshape, parseValueWith_brace (parseValue (9997 + 2)) _ _ _ (0x7B : Byte) cQuote
    (skipSpace_to [] _ _ (fun x hx => absurd hx (List.not_mem_nil x)) (by decide)) (by decide)
    (skipSpace_to _ cQuote _ (newlineIndent_space 1) (by decide)) (by decide),
    hn, show 1 + n = n + 1 by omega,
    parseMembers_last (parseValue (9997 + 2)) n _ _ _ _ _ _ _ (newlineIndent_space 1)
      keys_plain.2.2 (parseValue_shares 9997 _ c.Shares _ space_isSpace) rfl
      (newlineIndent_space 0)]
  rfl

/-! ### encoding/json: decoding an encoded configuration -/

set_option maxRecDepth 100000 in
/-- The keys of the encoding select their fields. -/
theorem keyIs_keys :
    keyIs "Shares" (lit "Shares") = true ∧ keyIs "Name" (lit "Name") = true
    ∧ keyIs "Name" (lit "Dir") = false ∧ keyIs "Dir" (lit "Dir") = true := by
  decide

/-- A string field takes the value the encoder escaped. -/
theorem storeString_escaped (s cur : GoString) (hs : ValidString s = true) :
    storeString (JSON.string (escaped s)) cur = (s, false) := by
  simp only [storeString, unquote_escaped s hs]

/-- A `Share` takes the values of an encoded share. -/
theorem storeShare_shareJSON (s cur : Share) (hn : ValidString s.Name = true)
    (hd : ValidString s.Dir = true) : storeShare (shareJSON s) cur = (s, false) := by
  simp only [storeShare, shareJSON, List.foldl_cons, List.foldl_nil, storeShareField,
    keyIs_keys.2.1, keyIs_keys.2.2.1, keyIs_keys.2.2.2, if_true, Bool.false_eq_true, if_false,
    storeString_escaped _ _ hn, storeString_escaped _ _ hd, Bool.or_false]

/-- A slice takes the shares of an encoded list. -/
theorem storeElems_shareJSON (l cur : List Share)
    (hl : ∀ s ∈ l, ValidString s.Name = true ∧ ValidString s.Dir = true) :
    storeElems (l.map shareJSON) cur = (l, false) := by
  induction l generalizing cur with
  | nil => rfl
  | cons s rest ih =>
    have hs := hl s (List.mem_cons_self _ _)
    simp only [List.map_cons, storeElems, storeShare_shareJSON s _ hs.1 hs.2,
      ih _ (fun t ht => hl t (List.mem_cons_of_mem _ ht)), Bool.or_false]

/-- The field `Shares` takes an encoded slice, nil or not. -/
theorem storeShares_sharesJSON (sh cur : Option (List Share))
    (hl : ∀ s ∈ sh.getD [], ValidString s.Name = true ∧ ValidString s.Dir = true) :
    storeShares (sharesJSON sh) cur = (sh, false) := by
  cases sh with
  | none => rfl
  | some l => simp only [sharesJSON, storeShares, storeElems_shareJSON l _ hl]

/-- A `Config` takes an encoded configuration. -/
theorem storeConfig_configJSON (c cur : Config)
    (hl : ∀ s ∈ c.shareList, ValidString s.Name = true ∧ ValidString s.Dir = true) :
    storeConfig (configJSON c) cur = (c, false) := by
  simp only [storeConfig, configJSON, List.foldl_cons, List.foldl_nil, storeConfigField,
    keyIs_keys.1, if_true, storeShares_sharesJSON c.Shares _ hl, Bool.or_false]

/-- Decoding what the encoder wrote for a configuration of valid UTF-8 strings
gives that configuration, without error. -/
theorem Decode_encodeConfig (c cur : Config)
    (hl : ∀ s ∈ c.shareList, ValidString s.Name = true ∧ ValidString s.Dir = true) :
    Decode (encodeConfig c) cur = (c, none) := by
  have hstart : skipSpace (encodeConfig c)
      = 0x7B :: (newlineIndent 1 ++ [cQuote] ++ lit "Shares" ++ [cQuote, 0x3A, 0x20]
          ++ encodeShares c.Shares ++ newlineIndent 0 ++ [0x7D, 0x0A]) :=
    skipSpace_cons _ _ (by decide)
  unfold Decode
  rw [hstart]
  simp only [parseValue_encodeConfig c, storeConfig_configJSON c cur hl, Bool.false_eq_true,
    if_false]

/-! ### Saving and loading -/

/-- `mkdir` leaves the faults of the world as they are. -/
theorem mkdir_faulty (w : World) (dir : Path) : (mkdir w dir).2.faulty = w.faulty := by
  unfold mkdir
  have hstat : osStat w dir = ((osStat w dir).1, w.record (Call.stat dir)) := rfl
  rw [hstat]
  generalize (osStat w dir).1 = r
  rcases r with e | d
  · by_cases he : e ≠ OsError.notExist
    · simp only [if_pos he]
      rfl
    · simp only [if_neg he]
      unfold osMkdirAll
      split_ifs <;> rfl
  · cases d <;> rfl

/-- After a successful save the configuration file holds the encoding of the
configuration and can be read. -/
theorem saveConfig_ok (a : App) (w : World) (hsave : (a.saveConfig w).1 = none) :
    (a.saveConfig w).2.nodes a.ConfigLoc = some (Node.file (encodeConfig a.Config))
    ∧ (a.saveConfig w).2.faulty a.ConfigLoc = false := by
  unfold App.saveConfig at hsave ⊢
  have hmk := mkdir_faulty w a.ConfigLoc.dropLast
  rcases hm : mkdir w a.ConfigLoc.dropLast with ⟨e1, w1⟩
  rw [hm] at hsave hmk
  cases e1 with
  | some err => exact absurd hsave (by simp)
  | none =>
    simp only [] at hsave hmk ⊢
    unfold osCreate at hsave ⊢
    by_cases hc1 : w1.faulty a.ConfigLoc = true ∨ w1.nodes a.ConfigLoc = some Node.dir
    · rw [if_pos hc1] at hsave
      exact absurd hsave (by simp)
    · rw [if_neg hc1] at hsave ⊢
      by_cases hc2 : w1.nodes a.ConfigLoc.dropLast ≠ some Node.dir
      · rw [if_pos hc2] at hsave
        exact absurd hsave (by simp)
      · rw [if_neg hc2] at hsave ⊢
        simp only [] at hsave ⊢
        unfold osWrite at hsave ⊢
        by_cases hfull : w1.diskFull = true
        · simp only [World.record, hfull, if_true] at hsave
          exact absurd hsave (by simp)
        · simp only [World.record, hfull, Bool.false_eq_true, if_false, if_true]
          refine ⟨trivial, ?_⟩
          cases hf : w1.faulty a.ConfigLoc
          · rfl
          · exact absurd (Or.inl hf) hc1

/-- C6, as the code has it: for every Config whose names and directories are
valid UTF-8, if `saveConfig` succeeds at `ConfigLoc`, then `loadConfig` at the
same `ConfigLoc` into a fresh empty Config succeeds and yields the same
Config: the same number of shares, with the same `Name` and `Dir` values, in
the same order. -/
theorem save_then_load (a : App) (w : World)
    (hvalid : ∀ s ∈ a.Config.shareList, ValidString s.Name = true ∧ ValidString s.Dir = true)
    (hsave : (a.saveConfig w).1 = none) :
    ((App.mk a.ConfigLoc { Shares := none }).loadConfig (a.saveConfig w).2).1 = none
    ∧ ((App.mk a.ConfigLoc { Shares := none }).loadConfig (a.saveConfig w).2).2.1.Config
        = a.Config
    ∧ ((App.mk a.ConfigLoc { Shares := none }).loadConfig (a.saveConfig w).2).2.1.Config.shareList
        = a.Config.shareList
    ∧ ((App.mk a.ConfigLoc { Shares := none }).loadConfig
          (a.saveConfig w).2).2.1.Config.shareList.length
        = a.Config.shareList.length := by
  obtain ⟨hnode, hfaulty⟩ := saveConfig_ok a w hsave
  rw [loadConfig_of_file (App.mk a.ConfigLoc { Shares := none }) _ _ hfaulty hnode,
    Decode_encodeConfig a.Config _ hvalid]
  exact ⟨rfl, rfl, rfl, rfl⟩

/-- C6, at a config holding `docs` at `/tmp/docs` and `p` at `/tmp/p`, saved
where the configuration directory does not exist yet. -/
theorem save_then_load_witness :
    (listedApp.saveConfig freshWorld).1 = none
    ∧ ((App.mk listedApp.ConfigLoc { Shares := none }).loadConfig
        (listedApp.saveConfig freshWorld).2).2.1.Config.shareList
      = [docsShare, { Name := lit "p", Dir := lit "/tmp/p" }] :=
  have h := save_then_load listedApp freshWorld (by decide) (by decide)
  ⟨by decide, h.2.2.1⟩

/-- C6 as stated fails: a share whose name is the byte 0xFF is saved without
error, and loaded without error, but the name comes back as the three bytes
of U+FFFD. -/
theorem save_then_load_invalid_utf8 :
    latin1App.Config.shareList = [{ Name := [0xFF], Dir := lit "/tmp/x" }]
    ∧ (latin1App.saveConfig freshWorld).1 = none
    ∧ ((App.mk latin1App.ConfigLoc { Shares := none }).loadConfig
        (latin1App.saveConfig freshWorld).2).1 = none
    ∧ ((App.mk latin1App.ConfigLoc { Shares := none }).loadConfig
        (latin1App.saveConfig freshWorld).2).2.1.Config.shareList
      = [{ Name := [0xEF, 0xBF, 0xBD], Dir := lit "/tmp/x" }]
    ∧ ((App.mk latin1App.ConfigLoc { Shares := none }).loadConfig
        (latin1App.saveConfig freshWorld).2).2.1.Config.shareList
      ≠ latin1App.Config.shareList := by
  decide

end Vault
